import Mathlib

/-!
Verification development for the grimoire knowledge base.

Go strings are modelled as `List Char`; `len` on a Go string counts UTF-8
bytes, modelled by `utf8Len` below.  Floating-point RRF scores are modelled
with exact rationals.  The SQLite layer is external to the verified core:
the fusion, chunking, lookup and ingestion logic is embedded directly from
the Go source, with the result lists of the SQL sub-queries taken as inputs.
-/

namespace gostr

/-- Byte length of a Go string (`len(s)` in Go counts UTF-8 bytes). -/
def utf8Len : List Char → Nat
  | [] => 0
  | c :: r => c.utf8Size + utf8Len r

/-- Go `unicode.IsSpace` restricted to its Latin-1 fast path
(tab, newline, vertical tab, form feed, carriage return, space,
next-line, no-break space); higher Unicode space code points do not
occur in any input considered here. -/
def goIsSpace (c : Char) : Bool :=
  c = ' ' || c = '\t' || c = '\n' || c.toNat = 11 || c.toNat = 12 ||
  c = '\r' || c.toNat = 133 || c.toNat = 160

/-- Go `strings.TrimSpace`: drop leading and trailing white space. -/
def trimSpace (l : List Char) : List Char :=
  ((l.dropWhile goIsSpace).reverse.dropWhile goIsSpace).reverse

theorem utf8Len_append (a b : List Char) :
    utf8Len (a ++ b) = utf8Len a + utf8Len b := by
  induction a with
  | nil => simp [utf8Len]
  | cons c r ih => simp [utf8Len, ih]; ring

theorem utf8Size_pos (c : Char) : 0 < c.utf8Size := by
  have := Char.utf8Size_pos c
  omega

theorem utf8Len_dropWhile_le (p : Char → Bool) (l : List Char) :
    utf8Len (l.dropWhile p) ≤ utf8Len l := by
  induction l with
  | nil => simp [List.dropWhile]
  | cons c r ih =>
    by_cases h : p c
    · simp [List.dropWhile, h, utf8Len]
      have := utf8Size_pos c
      omega
    · simp [List.dropWhile, h]

theorem utf8Len_reverse (l : List Char) : utf8Len l.reverse = utf8Len l := by
  induction l with
  | nil => rfl
  | cons c r ih => simp [List.reverse_cons, utf8Len_append, utf8Len, ih]; ring

theorem utf8Len_trimSpace_le (l : List Char) : utf8Len (trimSpace l) ≤ utf8Len l :=
  calc utf8Len (trimSpace l)
      = utf8Len ((l.dropWhile goIsSpace).reverse.dropWhile goIsSpace) := utf8Len_reverse _
    _ ≤ utf8Len (l.dropWhile goIsSpace).reverse := utf8Len_dropWhile_le _ _
    _ = utf8Len (l.dropWhile goIsSpace) := utf8Len_reverse _
    _ ≤ utf8Len l := utf8Len_dropWhile_le _ _

theorem trimSpace_nil : trimSpace [] = [] := rfl

theorem trimSpace_cons_space {c : Char} (h : goIsSpace c = true) (l : List Char) :
    trimSpace (c :: l) = trimSpace l := by
  simp [trimSpace, List.dropWhile_cons, h]

/-- A list whose first and last characters are not white space is
trim-stable. -/
theorem trimSpace_eq_self (l : List Char)
    (h1 : ∀ c ∈ l.head?, goIsSpace c = false)
    (h2 : ∀ c ∈ l.getLast?, goIsSpace c = false) :
    trimSpace l = l := by
  have hd : l.dropWhile goIsSpace = l := by
    cases l with
    | nil => rfl
    | cons a r =>
      have : goIsSpace a = false := h1 a (by simp)
      simp [List.dropWhile_cons, this]
  have hr : l.reverse.dropWhile goIsSpace = l.reverse := by
    cases hl : l.reverse with
    | nil => rfl
    | cons a r =>
      have ha : l.getLast? = some a := by
        rw [← List.head?_reverse, hl]; rfl
      have : goIsSpace a = false := h2 a (by rw [ha]; rfl)
      simp [List.dropWhile_cons, this]
  simp [trimSpace, hd, hr]

/-- The first character surviving `dropWhile p` fails `p`. -/
theorem head?_dropWhile {p : Char → Bool} {l : List Char} {c : Char}
    (h : (l.dropWhile p).head? = some c) : p c = false := by
  induction l with
  | nil => simp [List.dropWhile] at h
  | cons a r ih =>
    by_cases hp : p a
    · simp [List.dropWhile_cons, hp] at h; exact ih h
    · simp [List.dropWhile_cons, hp] at h
      subst h
      simpa using hp

/-- `dropWhile` returns a suffix, so a nonempty result keeps the last
element of the input. -/
theorem getLast?_dropWhile {p : Char → Bool} {l : List Char}
    (h : l.dropWhile p ≠ []) : (l.dropWhile p).getLast? = l.getLast? := by
  induction l with
  | nil => simp [List.dropWhile] at h
  | cons a r ih =>
    by_cases hp : p a
    · have hr : r.dropWhile p ≠ [] := by
        simpa [List.dropWhile_cons, hp] using h
      have hrn : r ≠ [] := by
        intro he; rw [he] at hr; simp [List.dropWhile] at hr
      rw [List.dropWhile_cons]
      simp only [hp, if_pos]
      rw [ih hr]
      cases r with
      | nil => exact absurd rfl hrn
      | cons b t => rw [List.getLast?_cons_cons]
    · simp [List.dropWhile_cons, hp]

/-- A nonempty trimmed string starts with a non-space character. -/
theorem head?_trimSpace {l : List Char} {c : Char}
    (h : (trimSpace l).head? = some c) : goIsSpace c = false := by
  unfold trimSpace at h
  rw [List.head?_reverse] at h
  have hne : (l.dropWhile goIsSpace).reverse.dropWhile goIsSpace ≠ [] := by
    intro he; rw [he] at h; simp at h
  rw [getLast?_dropWhile hne, List.getLast?_reverse] at h
  exact head?_dropWhile h

/-- A nonempty trimmed string ends with a non-space character. -/
theorem getLast?_trimSpace {l : List Char} {c : Char}
    (h : (trimSpace l).getLast? = some c) : goIsSpace c = false := by
  unfold trimSpace at h
  rw [List.getLast?_reverse] at h
  exact head?_dropWhile h

/-- Trimming is idempotent. -/
theorem trimSpace_trimSpace (l : List Char) :
    trimSpace (trimSpace l) = trimSpace l := by
  apply trimSpace_eq_self
  · intro c hc; exact head?_trimSpace hc
  · intro c hc; exact getLast?_trimSpace hc

/-- An element that is not white space survives `dropWhile`. -/
theorem mem_dropWhile_of_mem {p : Char → Bool} {l : List Char} {c : Char}
    (hc : c ∈ l) (hp : p c = false) : c ∈ l.dropWhile p := by
  induction l with
  | nil => simp at hc
  | cons a r ih =>
    by_cases hpa : p a
    · rcases List.mem_cons.mp hc with h | h
      · subst h; rw [hpa] at hp; simp at hp
      · simp [List.dropWhile_cons, hpa]; exact ih h
    · simp only [List.dropWhile_cons, hpa, if_neg, Bool.not_eq_true, if_false]
      exact hc

/-- A string containing a non-space character trims to a nonempty string. -/
theorem trimSpace_ne_nil {l : List Char} {c : Char}
    (hc : c ∈ l) (hp : goIsSpace c = false) : trimSpace l ≠ [] := by
  have h1 : c ∈ l.dropWhile goIsSpace := mem_dropWhile_of_mem hc hp
  have h2 : c ∈ (l.dropWhile goIsSpace).reverse.dropWhile goIsSpace :=
    mem_dropWhile_of_mem (by simpa using h1) hp
  intro he
  have : c ∈ trimSpace l := by simpa [trimSpace] using h2
  rw [he] at this
  simp at this

end gostr

namespace parse

/-- A heading in a parsed Markdown document (internal/parse). -/
structure Heading where
  level : Nat
  text : List Char
deriving DecidableEq

/-- A section of content under a heading; `heading = none` for the
synthetic root section created when a document has no headings. -/
structure Section where
  heading : Option Heading
  content : List Char
deriving DecidableEq

/-- A parsed Markdown document (internal/parse.Document), restricted to
the fields the chunker reads plus the raw content. -/
structure Document where
  title : List Char
  sections : List Section
  rawContent : List Char
deriving DecidableEq

end parse

namespace chunk

open gostr

/-- A piece of content from a document (internal/chunk.Chunk). -/
structure Chunk where
  level : String
  title : List Char
  content : List Char
  tokenCount : Nat
  parentIndex : Option Nat
  breadcrumbs : List (List Char)
deriving DecidableEq

/-- The chunker with its per-chunk token budget (internal/chunk.Chunker). -/
structure Chunker where
  maxTokens : Nat
deriving DecidableEq

/-- CountTokens estimates tokens as about 4 bytes per token:
`(len(text) + 3) / 4`. -/
def Chunker.CountTokens (_ : Chunker) (text : List Char) : Nat :=
  (utf8Len text + 3) / 4

/-- Split on each non-overlapping occurrence of a double newline,
as Go `strings.Split(text, "\n\n")`. -/
def splitDoubleNewline : List Char → List (List Char)
  | [] => [[]]
  | '\n' :: '\n' :: rest => [] :: splitDoubleNewline rest
  | c :: rest =>
    match splitDoubleNewline rest with
    | h :: t => (c :: h) :: t
    | [] => [[c]]

/-- splitIntoParagraphs splits text on double newlines, trimming each
part and dropping empty parts. -/
def splitIntoParagraphs (text : List Char) : List (List Char) :=
  ((splitDoubleNewline text).map trimSpace).filter (fun p => !p.isEmpty)

/-- A sentence terminator: `.`, `!` or `?`. -/
def isTerminator (c : Char) : Bool :=
  c = '.' || c = '!' || c = '?'

/-- The rune loop of splitIntoSentences: accumulate characters into
`current`, flushing the trimmed buffer at each terminator, and flush a
trailing nonempty buffer at the end. -/
def sentencesLoop : List Char → List Char → List (List Char)
  | [], current =>
    if (trimSpace current).isEmpty then [] else [trimSpace current]
  | c :: rest, current =>
    if isTerminator c then trimSpace (current ++ [c]) :: sentencesLoop rest []
    else sentencesLoop rest (current ++ [c])

/-- splitIntoSentences splits text on sentence boundaries. -/
def splitIntoSentences (text : List Char) : List (List Char) :=
  sentencesLoop text []

/-- The sentence-accumulation loop for an over-budget paragraph: greedily
append sentences to `current`; when appending would exceed the budget and
the buffer is nonempty, flush the trimmed buffer as a paragraph chunk
(its token count computed on the untrimmed buffer) and restart from the
offending sentence; flush any trailing nonempty buffer. -/
def sentenceChunks (c : Chunker) (title : List Char) (bc : List (List Char))
    (sectionIdx : Nat) : List (List Char) → List Char → List Chunk → List Chunk
  | [], current, chunks =>
    if (trimSpace current).isEmpty then chunks
    else chunks ++ [⟨"paragraph", title, trimSpace current,
      c.CountTokens current, some sectionIdx, bc⟩]
  | sent :: rest, current, chunks =>
    let test := current ++ ' ' :: sent
    if c.CountTokens test > c.maxTokens ∧ current ≠ [] then
      sentenceChunks c title bc sectionIdx rest sent
        (chunks ++ [⟨"paragraph", title, trimSpace current,
          c.CountTokens current, some sectionIdx, bc⟩])
    else
      sentenceChunks c title bc sectionIdx rest test chunks

/-- The paragraph loop for an over-budget section: each trimmed nonempty
paragraph is emitted whole when it fits the budget and otherwise split
into sentence-accumulated chunks. -/
def paragraphChunks (c : Chunker) (title : List Char) (bc : List (List Char))
    (sectionIdx : Nat) : List (List Char) → List Chunk → List Chunk
  | [], chunks => chunks
  | p :: rest, chunks =>
    let para := trimSpace p
    if para.isEmpty then paragraphChunks c title bc sectionIdx rest chunks
    else
      let paraTokens := c.CountTokens para
      if paraTokens > c.maxTokens then
        paragraphChunks c title bc sectionIdx rest
          (sentenceChunks c title bc sectionIdx (splitIntoSentences para) [] chunks)
      else
        paragraphChunks c title bc sectionIdx rest
          (chunks ++ [⟨"paragraph", title, para, paraTokens, some sectionIdx, bc⟩])

/-- The section loop of Chunk: maintain the heading stack, emit one
section chunk for a fitting section, and a header chunk followed by
paragraph chunks for an over-budget one.  Sections without a heading are
skipped. -/
def sectionChunks (c : Chunker) :
    List parse.Section → List (List Char) → List Chunk → List Chunk
  | [], _, chunks => chunks
  | s :: rest, stack, chunks =>
    match s.heading with
    | none => sectionChunks c rest stack chunks
    | some h =>
      let stack1 := stack.take h.level
      let stack2 :=
        if stack1.length < h.level then stack1 ++ [h.text]
        else stack1.set (h.level - 1) h.text
      let content := trimSpace s.content
      let tokens := c.CountTokens content
      let chunks' :=
        if tokens ≤ c.maxTokens then
          chunks ++ [⟨"section", h.text, content, tokens, some 0, stack2⟩]
        else
          let sectionIdx := chunks.length
          paragraphChunks c h.text stack2 sectionIdx
            (splitIntoParagraphs content)
            (chunks ++ [⟨"section", h.text, h.text,
              c.CountTokens h.text, some 0, stack2⟩])
      sectionChunks c rest stack2 chunks'

/-- The content of the summary chunk: the document title, plus the first
section's trimmed leading prose when that prose is nonempty and shorter
than 500 bytes. -/
def summaryContent (doc : parse.Document) : List Char :=
  match doc.sections with
  | [] => doc.title
  | s0 :: _ =>
    if s0.content.isEmpty then doc.title
    else
      let intro := trimSpace s0.content
      if !intro.isEmpty ∧ utf8Len intro < 500 then
        doc.title ++ '\n' :: '\n' :: intro
      else doc.title

/-- Chunk splits a parsed document into chunks: a summary chunk first,
then section and paragraph chunks in document order. -/
def Chunker.Chunk (c : Chunker) (doc : parse.Document) : List Chunk :=
  let sc := summaryContent doc
  sectionChunks c doc.sections [doc.title]
    [⟨"summary", doc.title, sc, c.CountTokens sc, none, [doc.title]⟩]

end chunk

namespace store

/-- A chunk row as returned by the store (internal/store.Chunk). -/
structure SChunk where
  id : Int
  documentID : Int
  parentChunkID : Option Int
  level : String
  title : String
  content : String
  tokenCount : Int
deriving DecidableEq

/-- A chunk with its similarity score (internal/store.SearchResult);
the float64 distance is modelled exactly as a rational. -/
structure SearchResult where
  chunk : SChunk
  distance : ℚ
deriving DecidableEq

/-- The accumulated RRF contribution of one ranked list of chunk ids to
the score of `id`: the loop adds `1 / (60 + rank)` at each position
holding `id`, with 1-based rank starting at `r + 1`. -/
def listContrib (id : Int) : List Int → Nat → ℚ
  | [], _ => 0
  | x :: xs, r =>
    (if x = id then (1 : ℚ) / (60 + ((r : ℚ) + 1)) else 0) + listContrib id xs (r + 1)

/-- The fused RRF score of a chunk id: the sum of its contributions from
the vector ranking and the lexical ranking. -/
def rrfScore (vecIds ftsIds : List Int) (id : Int) : ℚ :=
  listContrib id vecIds 0 + listContrib id ftsIds 0

/-- The chunk record the fusion loop associates with an id: the last
vector result carrying that id (later map writes win), else the first
FTS result carrying it. -/
def chunkFor (vec : List SearchResult) (fts : List SChunk) (id : Int) : Option SChunk :=
  match vec.reverse.find? (fun r => decide (r.chunk.id = id)) with
  | some r => some r.chunk
  | none => fts.find? (fun c => decide (c.id = id))

/-- Materialise the score map into a result slice, visiting the map keys
in the order `order` (Go map iteration order is unspecified, so the
enumeration order is an explicit parameter); each entry's reported
distance is the reciprocal of its fused score. -/
def fuseResults (vec : List SearchResult) (fts : List SChunk)
    (order : List Int) : List SearchResult :=
  order.filterMap (fun id =>
    (chunkFor vec fts id).map (fun c =>
      ⟨c, 1 / rrfScore (vec.map (fun r => r.chunk.id)) (fts.map (fun c => c.id)) id⟩))

/-- Ascending order of reported distance. -/
def byDistance (a b : SearchResult) : Prop := a.distance ≤ b.distance

instance : DecidableRel byDistance :=
  fun a b => inferInstanceAs (Decidable (a.distance ≤ b.distance))

instance : IsTotal SearchResult byDistance :=
  ⟨fun a b => le_total a.distance b.distance⟩

instance : IsTrans SearchResult byDistance :=
  ⟨fun _ _ _ h1 h2 => le_trans h1 h2⟩

/-- SearchChunksHybrid, from the point where the two sub-searches have
returned: with an empty text query the vector results are returned
unchanged; otherwise the RRF-fused entries are sorted by ascending
distance (a comparison sort, modelled by insertion sort) and truncated
to `limit`. -/
def SearchChunksHybrid (vec : List SearchResult) (fts : List SChunk)
    (textQuery : List Char) (order : List Int) (limit : Nat) : List SearchResult :=
  if textQuery = [] then vec
  else (List.insertionSort byDistance (fuseResults vec fts order)).take limit

/-- An enumeration order is valid for the score map when it lists,
without repetition, exactly the ids appearing in the two result lists. -/
def ValidOrder (vec : List SearchResult) (fts : List SChunk)
    (order : List Int) : Prop :=
  order.Nodup ∧
  (∀ id ∈ order, id ∈ vec.map (fun r => r.chunk.id) ∨ id ∈ fts.map (fun c => c.id)) ∧
  (∀ r ∈ vec, r.chunk.id ∈ order) ∧ (∀ c ∈ fts, c.id ∈ order)

instance (vec : List SearchResult) (fts : List SChunk) (order : List Int) :
    Decidable (ValidOrder vec fts order) := by
  unfold ValidOrder; infer_instance

/-- The rank-based RRF contribution as the specification words it: a
chunk at 1-based rank `r` in a list contributes `1 / (60 + r)`, and a
chunk absent from the list contributes zero. -/
def rankContrib (l : List Int) (id : Int) : ℚ :=
  if id ∈ l then (1 : ℚ) / (60 + ((l.indexOf id : ℚ) + 1)) else 0

/-- A language row (internal/store.Language). -/
structure Language where
  id : Int
  name : List Char
  displayName : List Char
deriving DecidableEq

/-- A document row (internal/store.Document). -/
structure Document where
  id : Int
  sourceID : Int
  path : List Char
  title : List Char
deriving DecidableEq

/-- The errors a lookup can surface: an error chain wrapping ErrNotFound
(as built by GetLanguage via fmt.Errorf with a %w of ErrNotFound), the
raw sql.ErrNoRows of the database driver, or any other error. -/
inductive StoreErr where
  | wrappedNotFound (context : String)
  | sqlNoRows
  | other (msg : String)
deriving DecidableEq

/-- Go `errors.Is(err, ErrNotFound)`: true exactly when the error chain
contains ErrNotFound. -/
def errorsIsNotFound : StoreErr → Bool
  | .wrappedNotFound _ => true
  | _ => false

/-- GetLanguage: select the row with the given name; on sql.ErrNoRows
return an error wrapping ErrNotFound. -/
def GetLanguage (langs : List Language) (name : List Char) :
    Except StoreErr Language :=
  match langs.find? (fun l => decide (l.name = name)) with
  | some l => .ok l
  | none => .error (.wrappedNotFound "language")

/-- GetDocumentByPath: select the row with the given source id and path;
on a miss the raw driver error is returned unwrapped. -/
def GetDocumentByPath (docs : List Document) (sourceID : Int) (path : List Char) :
    Except StoreErr Document :=
  match docs.find? (fun d => decide (d.sourceID = sourceID ∧ d.path = path)) with
  | some d => .ok d
  | none => .error .sqlNoRows

end store

namespace ingest

/-- A chunk as persisted by the ingestion loop: its position in the
in-memory sequence, its store-assigned id, and its parent's store id. -/
structure PersistedChunk where
  idx : Nat
  dbId : Int
  parentDbId : Option Int
deriving DecidableEq

/-- The per-document persistence loop of the ingest command: `ids i` is
the store-assigned id for chunk `i`, `ok i` is whether CreateChunk
succeeded for it (on failure the loop continues without recording an
id), and `m` is the chunkIDs map from already-persisted positions to
their ids.  The parent id is looked up in `m` before the insert. -/
def persistLoop (ids : Nat → Int) (ok : Nat → Bool) :
    List chunk.Chunk → Nat → (Nat → Option Int) → List PersistedChunk
  | [], _, _ => []
  | c :: rest, i, m =>
    let parentID : Option Int :=
      match c.parentIndex with
      | some p => m p
      | none => none
    if ok i then
      ⟨i, ids i, parentID⟩ ::
        persistLoop ids ok rest (i + 1) (fun j => if j = i then some (ids i) else m j)
    else
      persistLoop ids ok rest (i + 1) m

/-- Persist a document's chunk sequence starting from an empty chunkIDs
map. -/
def persistChunks (ids : Nat → Int) (ok : Nat → Bool)
    (cs : List chunk.Chunk) : List PersistedChunk :=
  persistLoop ids ok cs 0 (fun _ => none)

/-- The parent position stored at position `i` of a chunk sequence. -/
def parentOf (cs : List chunk.Chunk) (i : Nat) : Option Nat :=
  (cs[i]?).bind (fun c => c.parentIndex)

end ingest

namespace store

theorem listContrib_nonneg (id : Int) (l : List Int) (r : Nat) :
    0 ≤ listContrib id l r := by
  induction l generalizing r with
  | nil => simp [listContrib]
  | cons x xs ih =>
    simp only [listContrib]
    have h1 : (0 : ℚ) ≤ if x = id then (1 : ℚ) / (60 + ((r : ℚ) + 1)) else 0 := by
      split
      · positivity
      · exact le_refl 0
    have := ih (r + 1)
    linarith

theorem listContrib_eq_zero {id : Int} {l : List Int} (h : id ∉ l) (r : Nat) :
    listContrib id l r = 0 := by
  induction l generalizing r with
  | nil => rfl
  | cons x xs ih =>
    have hx : x ≠ id := fun he => h (he ▸ List.mem_cons_self x xs)
    have hxs : id ∉ xs := fun hm => h (List.mem_cons_of_mem x hm)
    simp [listContrib, hx, ih hxs]

theorem listContrib_nodup {id : Int} {l : List Int} (hnd : l.Nodup)
    (hm : id ∈ l) (r : Nat) :
    listContrib id l r = 1 / (60 + ((r : ℚ) + (l.indexOf id : ℚ) + 1)) := by
  induction l generalizing r with
  | nil => simp at hm
  | cons x xs ih =>
    rcases List.nodup_cons.mp hnd with ⟨hx, hxs⟩
    by_cases he : x = id
    · subst he
      rw [List.indexOf_cons_self]
      simp [listContrib, listContrib_eq_zero hx]
    · have hm' : id ∈ xs := by
        rcases List.mem_cons.mp hm with h | h
        · exact absurd h.symm he
        · exact h
      rw [List.indexOf_cons_ne _ he]
      simp only [listContrib, if_neg he, zero_add, ih hxs hm' (r + 1)]
      push_cast
      ring_nf

theorem listContrib_eq_rankContrib {id : Int} {l : List Int} (hnd : l.Nodup) :
    listContrib id l 0 = rankContrib l id := by
  by_cases hm : id ∈ l
  · rw [listContrib_nodup hnd hm 0, rankContrib, if_pos hm]
    norm_num
  · rw [listContrib_eq_zero hm 0, rankContrib, if_neg hm]

theorem listContrib_le {id : Int} {l : List Int} (hnd : l.Nodup) :
    listContrib id l 0 ≤ 1 / 61 := by
  by_cases hm : id ∈ l
  · rw [listContrib_nodup hnd hm 0]
    have h1 : (61 : ℚ) ≤ 60 + ((0 : ℚ) + (l.indexOf id : ℚ) + 1) := by
      have h2 : (0 : ℚ) ≤ (l.indexOf id : ℚ) := by positivity
      linarith
    exact one_div_le_one_div_of_le (by norm_num) h1
  · rw [listContrib_eq_zero hm 0]; norm_num

theorem listContrib_pos {id : Int} {l : List Int} (hnd : l.Nodup) (hm : id ∈ l) :
    0 < listContrib id l 0 := by
  rw [listContrib_nodup hnd hm 0]
  positivity

theorem chunkFor_id {vec : List SearchResult} {fts : List SChunk} {id : Int}
    {c : SChunk} (h : chunkFor vec fts id = some c) : c.id = id := by
  unfold chunkFor at h
  cases hf : vec.reverse.find? (fun r => decide (r.chunk.id = id)) with
  | some r =>
    rw [hf] at h
    have := List.find?_some hf
    simp at this
    cases h
    exact this
  | none =>
    rw [hf] at h
    have := List.find?_some h
    simpa using this

theorem mem_fuseResults {vec : List SearchResult} {fts : List SChunk}
    {order : List Int} {res : SearchResult} (h : res ∈ fuseResults vec fts order) :
    res.chunk.id ∈ order ∧
    res.distance = 1 / rrfScore (vec.map fun r => r.chunk.id)
      (fts.map fun c => c.id) res.chunk.id := by
  rcases List.mem_filterMap.mp h with ⟨id, hid, hmap⟩
  rcases Option.map_eq_some'.mp hmap with ⟨c, hc, hres⟩
  have hcid : c.id = id := chunkFor_id hc
  have : res.chunk = c ∧ res.distance = 1 / rrfScore (vec.map fun r => r.chunk.id)
      (fts.map fun c => c.id) id := by
    constructor
    · rw [← hres]
    · rw [← hres]
  rcases this with ⟨h1, h2⟩
  rw [h1, hcid]
  exact ⟨hid, h2⟩

theorem mem_hybrid {vec : List SearchResult} {fts : List SChunk}
    {tq : List Char} {order : List Int} {limit : Nat} {res : SearchResult}
    (htq : tq ≠ []) (h : res ∈ SearchChunksHybrid vec fts tq order limit) :
    res ∈ fuseResults vec fts order := by
  unfold SearchChunksHybrid at h
  rw [if_neg htq] at h
  have h1 := List.take_subset limit _ h
  exact (List.perm_insertionSort byDistance (fuseResults vec fts order)).mem_iff.mp h1

end store

namespace store

theorem rrfScore_eq_rank {vIds fIds : List Int} (hv : vIds.Nodup)
    (hf : fIds.Nodup) (id : Int) :
    rrfScore vIds fIds id = rankContrib vIds id + rankContrib fIds id := by
  rw [rrfScore, listContrib_eq_rankContrib hv, listContrib_eq_rankContrib hf]

theorem rrfScore_pos {vIds fIds : List Int} (hv : vIds.Nodup) (hf : fIds.Nodup)
    {id : Int} (hm : id ∈ vIds ∨ id ∈ fIds) : 0 < rrfScore vIds fIds id := by
  rcases hm with h | h
  · have h1 := listContrib_pos hv h
    have h2 := listContrib_nonneg id fIds 0
    rw [rrfScore]; linarith
  · have h1 := listContrib_pos hf h
    have h2 := listContrib_nonneg id vIds 0
    rw [rrfScore]; linarith

theorem rrfScore_le {vIds fIds : List Int} (hv : vIds.Nodup) (hf : fIds.Nodup)
    (id : Int) : rrfScore vIds fIds id ≤ 2 / 61 := by
  have h1 := @listContrib_le id vIds hv
  have h2 := @listContrib_le id fIds hf
  rw [rrfScore]; linarith

/-- For each result of a hybrid search with nonempty text query, its id
appears in the enumeration order and its distance is the reciprocal of
its fused score. -/
theorem mem_hybrid_spec {vec : List SearchResult} {fts : List SChunk}
    {tq : List Char} {order : List Int} {limit : Nat} {res : SearchResult}
    (htq : tq ≠ []) (h : res ∈ SearchChunksHybrid vec fts tq order limit) :
    res.chunk.id ∈ order ∧
    res.distance = 1 / rrfScore (vec.map fun r => r.chunk.id)
      (fts.map fun c => c.id) res.chunk.id :=
  mem_fuseResults (mem_hybrid htq h)

end store

namespace store

/-- Modelled from the spec's words, for the refinement claim: a pure
vector search with score reports exactly the ranked results of the
vector sub-search, unchanged.  The argument stands for
SearchChunksVectorWithScore's output for a given query embedding, topic
filter and limit. -/
def vectorOnlySearch (vectorResults : List SearchResult) : List SearchResult :=
  vectorResults

/-- C3: hybrid search with an empty text query returns exactly the pure
vector search result list for the same query embedding, topic filter and
limit (the same `vec` is the output of SearchChunksVectorWithScore on
those arguments in both paths): same chunks, same order, same distances;
fusion changes nothing. -/
theorem hybrid_empty_query_is_vector_search
    (vec : List SearchResult) (fts : List SChunk) (order : List Int) (limit : Nat) :
    SearchChunksHybrid vec fts [] order limit = vectorOnlySearch vec := by
  simp [SearchChunksHybrid, vectorOnlySearch]

/-- C1: for a hybrid search with a nonempty text query, duplicate-free
ranked lists and a valid enumeration order of the score map, the fused
score of every returned chunk is the sum over the two ranked lists of
1 / (60 + rank) with 1-based rank (zero from a list where the chunk is
absent), the reported distance is the reciprocal of the fused score, the
output is ordered by ascending distance, equivalently by descending
fused score, and the output length is at most the requested limit. -/
theorem hybrid_rrf_correct (vec : List SearchResult) (fts : List SChunk)
    (tq : List Char) (order : List Int) (limit : Nat)
    (htq : tq ≠ []) (hord : ValidOrder vec fts order)
    (hv : (vec.map fun r => r.chunk.id).Nodup)
    (hf : (fts.map fun c => c.id).Nodup) :
    (∀ res ∈ SearchChunksHybrid vec fts tq order limit,
      rrfScore (vec.map fun r => r.chunk.id) (fts.map fun c => c.id) res.chunk.id
          = rankContrib (vec.map fun r => r.chunk.id) res.chunk.id
            + rankContrib (fts.map fun c => c.id) res.chunk.id
        ∧ res.distance = 1 / rrfScore (vec.map fun r => r.chunk.id)
            (fts.map fun c => c.id) res.chunk.id)
    ∧ (SearchChunksHybrid vec fts tq order limit).Pairwise byDistance
    ∧ (SearchChunksHybrid vec fts tq order limit).Pairwise (fun a b =>
        rrfScore (vec.map fun r => r.chunk.id) (fts.map fun c => c.id) b.chunk.id
          ≤ rrfScore (vec.map fun r => r.chunk.id) (fts.map fun c => c.id) a.chunk.id)
    ∧ (SearchChunksHybrid vec fts tq order limit).length ≤ limit := by
  have hsorted : (SearchChunksHybrid vec fts tq order limit).Pairwise byDistance := by
    unfold SearchChunksHybrid
    rw [if_neg htq]
    exact List.Pairwise.sublist (List.take_sublist _ _)
      (List.sorted_insertionSort byDistance (fuseResults vec fts order))
  have hspec : ∀ res ∈ SearchChunksHybrid vec fts tq order limit,
      res.chunk.id ∈ order ∧
      res.distance = 1 / rrfScore (vec.map fun r => r.chunk.id)
        (fts.map fun c => c.id) res.chunk.id :=
    fun res hres => mem_hybrid_spec htq hres
  have hpos : ∀ res ∈ SearchChunksHybrid vec fts tq order limit,
      0 < rrfScore (vec.map fun r => r.chunk.id) (fts.map fun c => c.id)
        res.chunk.id := by
    intro res hres
    exact rrfScore_pos hv hf (hord.2.1 _ (hspec res hres).1)
  refine ⟨?_, hsorted, ?_, ?_⟩
  · intro res hres
    exact ⟨rrfScore_eq_rank hv hf _, (hspec res hres).2⟩
  · refine hsorted.imp_of_mem ?_
    intro a b ha hb hab
    have hda := (hspec a ha).2
    have hdb := (hspec b hb).2
    have hpa := hpos a ha
    have hpb := hpos b hb
    have hab' : a.distance ≤ b.distance := hab
    rw [hda, hdb] at hab'
    exact le_of_one_div_le_one_div hpa hab'
  · unfold SearchChunksHybrid
    rw [if_neg htq]
    exact List.length_take_le _ _

/-- C10: for a hybrid search with a nonempty text query, every reported
distance is at least (60 + 1) / 2 and in particular greater than 1, so
hybrid distances never fall in the interval between 0 and 1 in which
pure-vector distances live; a chunk appearing in only one of the two
lists at 1-based rank `indexOf + 1` has distance exactly
60 + (indexOf + 1), which is at least 61. -/
theorem hybrid_distance_bounds (vec : List SearchResult) (fts : List SChunk)
    (tq : List Char) (order : List Int) (limit : Nat)
    (htq : tq ≠ []) (hord : ValidOrder vec fts order)
    (hv : (vec.map fun r => r.chunk.id).Nodup)
    (hf : (fts.map fun c => c.id).Nodup) :
    ∀ res ∈ SearchChunksHybrid vec fts tq order limit,
      ((60 : ℚ) + 1) / 2 ≤ res.distance ∧ 1 < res.distance
      ∧ (res.chunk.id ∈ vec.map (fun r => r.chunk.id) →
          res.chunk.id ∉ fts.map (fun c => c.id) →
          res.distance = 60 + (((vec.map fun r => r.chunk.id).indexOf res.chunk.id : ℚ) + 1)
            ∧ 61 ≤ res.distance)
      ∧ (res.chunk.id ∈ fts.map (fun c => c.id) →
          res.chunk.id ∉ vec.map (fun r => r.chunk.id) →
          res.distance = 60 + (((fts.map fun c => c.id).indexOf res.chunk.id : ℚ) + 1)
            ∧ 61 ≤ res.distance) := by
  intro res hres
  rcases mem_hybrid_spec htq hres with ⟨hmem, hdist⟩
  have hpos : 0 < rrfScore (vec.map fun r => r.chunk.id) (fts.map fun c => c.id)
      res.chunk.id := rrfScore_pos hv hf (hord.2.1 _ hmem)
  have hle : rrfScore (vec.map fun r => r.chunk.id) (fts.map fun c => c.id)
      res.chunk.id ≤ 2 / 61 := rrfScore_le hv hf _
  have hlb : ((60 : ℚ) + 1) / 2 ≤ res.distance := by
    rw [hdist]
    have := one_div_le_one_div_of_le hpos hle
    norm_num at this ⊢
    linarith
  refine ⟨hlb, by linarith, ?_, ?_⟩
  · intro hin hout
    have hscore : rrfScore (vec.map fun r => r.chunk.id) (fts.map fun c => c.id)
        res.chunk.id
        = 1 / (60 + (((vec.map fun r => r.chunk.id).indexOf res.chunk.id : ℚ) + 1)) := by
      rw [rrfScore, listContrib_nodup hv hin 0, listContrib_eq_zero hout 0]
      norm_num
    have hidx : (0 : ℚ) ≤ ((vec.map fun r => r.chunk.id).indexOf res.chunk.id : ℚ) := by
      positivity
    have heq : res.distance
        = 60 + (((vec.map fun r => r.chunk.id).indexOf res.chunk.id : ℚ) + 1) := by
      rw [hdist, hscore, one_div_one_div]
    exact ⟨heq, by rw [heq]; linarith⟩
  · intro hin hout
    have hscore : rrfScore (vec.map fun r => r.chunk.id) (fts.map fun c => c.id)
        res.chunk.id
        = 1 / (60 + (((fts.map fun c => c.id).indexOf res.chunk.id : ℚ) + 1)) := by
      rw [rrfScore, listContrib_nodup hf hin 0, listContrib_eq_zero hout 0]
      norm_num
    have hidx : (0 : ℚ) ≤ ((fts.map fun c => c.id).indexOf res.chunk.id : ℚ) := by
      positivity
    have heq : res.distance
        = 60 + (((fts.map fun c => c.id).indexOf res.chunk.id : ℚ) + 1) := by
      rw [hdist, hscore, one_div_one_div]
    exact ⟨heq, by rw [heq]; linarith⟩

end store

namespace store

/-- A chunk ranked 1st by vector search and 2nd by lexical search. -/
def tieA : SChunk := ⟨1, 1, none, "paragraph", "A", "alpha", 1⟩

/-- A chunk ranked 2nd by vector search and 1st by lexical search. -/
def tieB : SChunk := ⟨2, 1, none, "paragraph", "B", "beta", 1⟩

/-- Vector results ranking tieA before tieB. -/
def tieVec : List SearchResult := [⟨tieA, 1 / 10⟩, ⟨tieB, 2 / 10⟩]

/-- Lexical results ranking tieB before tieA. -/
def tieFts : List SChunk := [tieB, tieA]

/-- C4: hybrid search is not deterministic on tied fused scores: with
chunk 1 ranked (1st, 2nd) and chunk 2 ranked (2nd, 1st) the two fused
scores are exactly equal, and two valid enumeration orders of the score
map, both possible iterations of the Go map, produce different result
lists.  Go randomises map iteration order, so identical inputs can
return the two tied chunks in either order. -/
theorem hybrid_tie_order_dependent :
    ValidOrder tieVec tieFts [1, 2] ∧ ValidOrder tieVec tieFts [2, 1]
    ∧ rrfScore (tieVec.map fun r => r.chunk.id) (tieFts.map fun c => c.id) 1
      = rrfScore (tieVec.map fun r => r.chunk.id) (tieFts.map fun c => c.id) 2
    ∧ SearchChunksHybrid tieVec tieFts ['q'] [1, 2] 2
      ≠ SearchChunksHybrid tieVec tieFts ['q'] [2, 1] 2 := by
  refine ⟨by decide, by decide, ?_, ?_⟩
  · norm_num [rrfScore, listContrib, tieVec, tieFts, tieA, tieB]
  · norm_num [SearchChunksHybrid, fuseResults, chunkFor, rrfScore, listContrib,
      List.insertionSort, List.orderedInsert, byDistance, tieVec, tieFts,
      tieA, tieB, List.filterMap, List.find?]

/-- C1 witness: the fusion correctness theorem applied to the concrete
two-chunk scenario. -/
theorem hybrid_rrf_correct_witness :
    (['q'] : List Char) ≠ [] ∧ ValidOrder tieVec tieFts [1, 2]
    ∧ (tieVec.map fun r => r.chunk.id).Nodup ∧ (tieFts.map fun c => c.id).Nodup
    ∧ ((∀ res ∈ SearchChunksHybrid tieVec tieFts ['q'] [1, 2] 2,
        rrfScore (tieVec.map fun r => r.chunk.id) (tieFts.map fun c => c.id) res.chunk.id
            = rankContrib (tieVec.map fun r => r.chunk.id) res.chunk.id
              + rankContrib (tieFts.map fun c => c.id) res.chunk.id
          ∧ res.distance = 1 / rrfScore (tieVec.map fun r => r.chunk.id)
              (tieFts.map fun c => c.id) res.chunk.id)
      ∧ (SearchChunksHybrid tieVec tieFts ['q'] [1, 2] 2).Pairwise byDistance
      ∧ (SearchChunksHybrid tieVec tieFts ['q'] [1, 2] 2).Pairwise (fun a b =>
          rrfScore (tieVec.map fun r => r.chunk.id) (tieFts.map fun c => c.id) b.chunk.id
            ≤ rrfScore (tieVec.map fun r => r.chunk.id) (tieFts.map fun c => c.id) a.chunk.id)
      ∧ (SearchChunksHybrid tieVec tieFts ['q'] [1, 2] 2).length ≤ 2) :=
  ⟨by decide, by decide, by decide, by decide,
    hybrid_rrf_correct tieVec tieFts ['q'] [1, 2] 2
      (by decide) (by decide) (by decide) (by decide)⟩

/-- C10 witness: the distance bound theorem applied to the concrete
two-chunk scenario. -/
theorem hybrid_distance_bounds_witness :
    (['q'] : List Char) ≠ [] ∧ ValidOrder tieVec tieFts [1, 2]
    ∧ (tieVec.map fun r => r.chunk.id).Nodup ∧ (tieFts.map fun c => c.id).Nodup
    ∧ (∀ res ∈ SearchChunksHybrid tieVec tieFts ['q'] [1, 2] 2,
        ((60 : ℚ) + 1) / 2 ≤ res.distance ∧ 1 < res.distance
        ∧ (res.chunk.id ∈ tieVec.map (fun r => r.chunk.id) →
            res.chunk.id ∉ tieFts.map (fun c => c.id) →
            res.distance = 60 + (((tieVec.map fun r => r.chunk.id).indexOf res.chunk.id : ℚ) + 1)
              ∧ 61 ≤ res.distance)
        ∧ (res.chunk.id ∈ tieFts.map (fun c => c.id) →
            res.chunk.id ∉ tieVec.map (fun r => r.chunk.id) →
            res.distance = 60 + (((tieFts.map fun c => c.id).indexOf res.chunk.id : ℚ) + 1)
              ∧ 61 ≤ res.distance)) :=
  ⟨by decide, by decide, by decide, by decide,
    hybrid_distance_bounds tieVec tieFts ['q'] [1, 2] 2
      (by decide) (by decide) (by decide) (by decide)⟩

end store

namespace store

/-- C9 counterexample: a GetDocumentByPath miss returns the raw driver
no-rows error, which does not satisfy errors.Is(err, ErrNotFound), so
the claim that both lookups fail with the NotFound condition is false. -/
theorem getDocumentByPath_miss_not_notFound :
    GetDocumentByPath [] 1 ['p'] = .error .sqlNoRows
    ∧ errorsIsNotFound .sqlNoRows = false := by
  constructor
  · rfl
  · rfl

/-- C9 amended: GetLanguage fails with an error wrapping ErrNotFound
when no row matches and returns the first matching row otherwise;
GetDocumentByPath returns the matching row when one matches, but on a
miss surfaces the raw driver no-rows error unwrapped, which does not
satisfy errors.Is(err, ErrNotFound). -/
theorem lookup_error_conditions (langs : List Language) (docs : List Document)
    (nm : List Char) (sid : Int) (p : List Char) :
    ((∀ l ∈ langs, l.name ≠ nm) →
      GetLanguage langs nm = .error (.wrappedNotFound "language")
        ∧ errorsIsNotFound (.wrappedNotFound "language") = true)
    ∧ (∀ l, GetLanguage langs nm = .ok l → l ∈ langs ∧ l.name = nm)
    ∧ ((∃ l ∈ langs, l.name = nm) →
        ∃ l, GetLanguage langs nm = .ok l ∧ l ∈ langs ∧ l.name = nm)
    ∧ ((∀ d ∈ docs, ¬(d.sourceID = sid ∧ d.path = p)) →
        GetDocumentByPath docs sid p = .error .sqlNoRows
          ∧ errorsIsNotFound .sqlNoRows = false)
    ∧ (∀ d, GetDocumentByPath docs sid p = .ok d →
        d ∈ docs ∧ d.sourceID = sid ∧ d.path = p)
    ∧ ((∃ d ∈ docs, d.sourceID = sid ∧ d.path = p) →
        ∃ d, GetDocumentByPath docs sid p = .ok d
          ∧ d ∈ docs ∧ d.sourceID = sid ∧ d.path = p) := by
  refine ⟨?_, ?_, ?_, ?_, ?_, ?_⟩
  · intro hmiss
    have hnone : langs.find? (fun l => decide (l.name = nm)) = none :=
      List.find?_eq_none.mpr (fun l hl => by simpa using hmiss l hl)
    constructor
    · unfold GetLanguage
      rw [hnone]
    · rfl
  · intro l hok
    unfold GetLanguage at hok
    cases hfind : langs.find? (fun l => decide (l.name = nm)) with
    | none => rw [hfind] at hok; exact absurd hok (by simp)
    | some l' =>
      rw [hfind] at hok
      have hmem := List.mem_of_find?_eq_some hfind
      have hname := List.find?_some hfind
      simp at hname
      cases hok
      exact ⟨hmem, hname⟩
  · intro hhit
    have hsome : (langs.find? (fun l => decide (l.name = nm))).isSome := by
      rw [List.find?_isSome]
      rcases hhit with ⟨l, hl, hn⟩
      exact ⟨l, hl, by simpa using hn⟩
    cases hfind : langs.find? (fun l => decide (l.name = nm)) with
    | none => rw [hfind] at hsome; simp at hsome
    | some l' =>
      refine ⟨l', ?_, List.mem_of_find?_eq_some hfind, ?_⟩
      · unfold GetLanguage
        rw [hfind]
      · have := List.find?_some hfind
        simpa using this
  · intro hmiss
    have hnone : docs.find? (fun d => decide (d.sourceID = sid ∧ d.path = p)) = none :=
      List.find?_eq_none.mpr (fun d hd => by simpa using hmiss d hd)
    constructor
    · unfold GetDocumentByPath
      rw [hnone]
    · rfl
  · intro d hok
    unfold GetDocumentByPath at hok
    cases hfind : docs.find? (fun d => decide (d.sourceID = sid ∧ d.path = p)) with
    | none => rw [hfind] at hok; exact absurd hok (by simp)
    | some d' =>
      rw [hfind] at hok
      have hmem := List.mem_of_find?_eq_some hfind
      have hprop := List.find?_some hfind
      simp at hprop
      cases hok
      exact ⟨hmem, hprop⟩
  · intro hhit
    have hsome : (docs.find? (fun d => decide (d.sourceID = sid ∧ d.path = p))).isSome := by
      rw [List.find?_isSome]
      rcases hhit with ⟨d, hd, hp1, hp2⟩
      exact ⟨d, hd, by simp [hp1, hp2]⟩
    cases hfind : docs.find? (fun d => decide (d.sourceID = sid ∧ d.path = p)) with
    | none => rw [hfind] at hsome; simp at hsome
    | some d' =>
      have hprop := List.find?_some hfind
      simp at hprop
      refine ⟨d', ?_, List.mem_of_find?_eq_some hfind, hprop.1, hprop.2⟩
      unfold GetDocumentByPath
      rw [hfind]

/-- C9 witness: the amended lookup theorem applied to empty tables,
where both lookups miss. -/
theorem lookup_error_conditions_witness :
    (GetLanguage [] ['g'] = .error (.wrappedNotFound "language")
      ∧ errorsIsNotFound (.wrappedNotFound "language") = true)
    ∧ (GetDocumentByPath [] 1 ['p'] = .error .sqlNoRows
      ∧ errorsIsNotFound .sqlNoRows = false) :=
  ⟨(lookup_error_conditions [] [] ['g'] 1 ['p']).1 (by simp),
   (lookup_error_conditions [] [] ['g'] 1 ['p']).2.2.2.1 (by simp)⟩

end store


namespace chunk

open gostr

theorem sentenceChunks_eq_append (ck : Chunker) (t : List Char)
    (bc : List (List Char)) (si : Nat) :
    ∀ (sents : List (List Char)) (cur : List Char) (cs : List Chunk),
    ∃ ext, sentenceChunks ck t bc si sents cur cs = cs ++ ext := by
  intro sents
  induction sents with
  | nil =>
    intro cur cs
    unfold sentenceChunks
    split
    · exact ⟨[], by simp⟩
    · exact ⟨_, rfl⟩
  | cons s rest ih =>
    intro cur cs
    show ∃ ext,
      (if ck.CountTokens (cur ++ ' ' :: s) > ck.maxTokens ∧ cur ≠ [] then
        sentenceChunks ck t bc si rest s
          (cs ++ [⟨"paragraph", t, trimSpace cur, ck.CountTokens cur, some si, bc⟩])
      else sentenceChunks ck t bc si rest (cur ++ ' ' :: s) cs) = cs ++ ext
    split
    · rcases ih s (cs ++ [⟨"paragraph", t, trimSpace cur,
        ck.CountTokens cur, some si, bc⟩]) with ⟨ext, hext⟩
      exact ⟨_, by rw [hext, List.append_assoc]⟩
    · exact ih _ cs

theorem paragraphChunks_eq_append (ck : Chunker) (t : List Char)
    (bc : List (List Char)) (si : Nat) :
    ∀ (paras : List (List Char)) (cs : List Chunk),
    ∃ ext, paragraphChunks ck t bc si paras cs = cs ++ ext := by
  intro paras
  induction paras with
  | nil => exact fun cs => ⟨[], by simp [paragraphChunks]⟩
  | cons p rest ih =>
    intro cs
    show ∃ ext,
      (if (trimSpace p).isEmpty = true then paragraphChunks ck t bc si rest cs
      else if ck.CountTokens (trimSpace p) > ck.maxTokens then
        paragraphChunks ck t bc si rest
          (sentenceChunks ck t bc si (splitIntoSentences (trimSpace p)) [] cs)
      else
        paragraphChunks ck t bc si rest
          (cs ++ [⟨"paragraph", t, trimSpace p, ck.CountTokens (trimSpace p),
            some si, bc⟩])) = cs ++ ext
    split
    · exact ih cs
    · split
      · rcases sentenceChunks_eq_append ck t bc si
          (splitIntoSentences (trimSpace p)) [] cs with ⟨e1, he1⟩
        rcases ih (sentenceChunks ck t bc si
          (splitIntoSentences (trimSpace p)) [] cs) with ⟨e2, he2⟩
        exact ⟨_, by rw [he2, he1, List.append_assoc]⟩
      · rcases ih (cs ++ [⟨"paragraph", t, trimSpace p,
          ck.CountTokens (trimSpace p), some si, bc⟩]) with ⟨ext, hext⟩
        exact ⟨_, by rw [hext, List.append_assoc]⟩

theorem sectionChunks_eq_append (ck : Chunker) :
    ∀ (secs : List parse.Section) (stack : List (List Char)) (cs : List Chunk),
    ∃ ext, sectionChunks ck secs stack cs = cs ++ ext := by
  intro secs
  induction secs with
  | nil => exact fun stack cs => ⟨[], by simp [sectionChunks]⟩
  | cons s rest ih =>
    intro stack cs
    have key : ∀ (st : List (List Char)) (c2 : List Chunk),
        (∃ e0, c2 = cs ++ e0) → ∃ ext, sectionChunks ck rest st c2 = cs ++ ext := by
      rintro st c2 ⟨e0, he0⟩
      rcases ih st c2 with ⟨e2, he2⟩
      exact ⟨e0 ++ e2, by rw [he2, he0, List.append_assoc]⟩
    cases hh : s.heading with
    | none =>
      show ∃ ext, sectionChunks ck (s :: rest) stack cs = cs ++ ext
      unfold sectionChunks
      rw [hh]
      exact ih stack cs
    | some h =>
      show ∃ ext, sectionChunks ck (s :: rest) stack cs = cs ++ ext
      unfold sectionChunks
      rw [hh]
      simp only
      apply key
      split
      · exact ⟨_, rfl⟩
      · rcases paragraphChunks_eq_append ck h.text
          (if (stack.take h.level).length < h.level then stack.take h.level ++ [h.text]
           else (stack.take h.level).set (h.level - 1) h.text) cs.length
          (splitIntoParagraphs (trimSpace s.content))
          (cs ++ [⟨"section", h.text, h.text, ck.CountTokens h.text, some 0,
            if (stack.take h.level).length < h.level then stack.take h.level ++ [h.text]
            else (stack.take h.level).set (h.level - 1) h.text⟩]) with ⟨e1, he1⟩
        exact ⟨_, by rw [he1, List.append_assoc]⟩

end chunk

namespace chunk

open gostr

theorem mem_sectionChunks_of_mem (ck : Chunker) {secs : List parse.Section}
    {stack : List (List Char)} {cs : List Chunk} {c : Chunk} (h : c ∈ cs) :
    c ∈ sectionChunks ck secs stack cs := by
  rcases sectionChunks_eq_append ck secs stack cs with ⟨ext, hext⟩
  rw [hext]
  exact List.mem_append_left ext h

theorem head?_sectionChunks (ck : Chunker) (secs : List parse.Section)
    (stack : List (List Char)) (x : Chunk) (cs : List Chunk) :
    (sectionChunks ck secs stack (x :: cs)).head? = some x := by
  rcases sectionChunks_eq_append ck secs stack (x :: cs) with ⟨ext, hext⟩
  rw [hext]
  rfl

theorem sectionChunks_ne_nil (ck : Chunker) (secs : List parse.Section)
    (stack : List (List Char)) (x : Chunk) (cs : List Chunk) :
    sectionChunks ck secs stack (x :: cs) ≠ [] := by
  rcases sectionChunks_eq_append ck secs stack (x :: cs) with ⟨ext, hext⟩
  rw [hext]
  simp

/-- Sections without a heading are skipped: a document all of whose
sections lack headings contributes no chunks beyond the accumulator. -/
theorem sectionChunks_all_headingless (ck : Chunker) :
    ∀ (secs : List parse.Section) (stack : List (List Char)) (cs : List Chunk),
    (∀ s ∈ secs, s.heading = none) →
    sectionChunks ck secs stack cs = cs := by
  intro secs
  induction secs with
  | nil => intro stack cs _; rfl
  | cons s rest ih =>
    intro stack cs hall
    have hh : s.heading = none := hall s (List.mem_cons_self s rest)
    unfold sectionChunks
    rw [hh]
    exact ih stack cs (fun s hs => hall s (List.mem_cons_of_mem _ hs))

end chunk

namespace chunk

open gostr

/-- A document whose title differs from its single level-1 heading. -/
def demoDoc : parse.Document :=
  ⟨"T".data, [⟨some ⟨1, "H".data⟩, "x".data⟩], "x".data⟩

/-- A non-empty document that produced no sections with headings. -/
def headinglessDoc : parse.Document :=
  ⟨"T".data, [⟨none, "hello".data⟩], "hello".data⟩

/-- C8 counterexample: a document with non-empty raw content and no
heading-bearing sections yields no chunk at level section at all (only
the summary chunk), contradicting the claim that a single section chunk
holding the entire content is emitted. -/
theorem headingless_doc_no_section_chunk :
    (∀ s ∈ headinglessDoc.sections, s.heading = none)
    ∧ headinglessDoc.rawContent ≠ []
    ∧ ∀ c ∈ (Chunker.mk 100).Chunk headinglessDoc, c.level ≠ "section" := by
  decide

/-- C8 amended: for a document all of whose sections lack headings, the
chunker emits exactly one chunk, the summary chunk (whose content embeds
the document's leading prose only when it is nonempty and shorter than
500 bytes); in particular no non-empty document yields zero chunks, but
no section chunk is emitted. -/
theorem chunk_headingless_summary_only (ck : Chunker) (doc : parse.Document)
    (hsec : ∀ s ∈ doc.sections, s.heading = none) (hne : doc.rawContent ≠ []) :
    ck.Chunk doc = [⟨"summary", doc.title, summaryContent doc,
      ck.CountTokens (summaryContent doc), none, [doc.title]⟩]
    ∧ 1 ≤ (ck.Chunk doc).length := by
  have h := sectionChunks_all_headingless ck doc.sections [doc.title]
    [⟨"summary", doc.title, summaryContent doc,
      ck.CountTokens (summaryContent doc), none, [doc.title]⟩] hsec
  constructor
  · exact h
  · rw [show ck.Chunk doc = _ from h]
    simp

/-- C8 witness: the amended theorem applied to the concrete
heading-less document. -/
theorem chunk_headingless_summary_only_witness :
    (∀ s ∈ headinglessDoc.sections, s.heading = none)
    ∧ headinglessDoc.rawContent ≠ []
    ∧ ((Chunker.mk 100).Chunk headinglessDoc
        = [⟨"summary", headinglessDoc.title, summaryContent headinglessDoc,
            (Chunker.mk 100).CountTokens (summaryContent headinglessDoc), none,
            [headinglessDoc.title]⟩]
      ∧ 1 ≤ ((Chunker.mk 100).Chunk headinglessDoc).length) :=
  ⟨by decide, by decide,
    chunk_headingless_summary_only (Chunker.mk 100) headinglessDoc
      (by decide) (by decide)⟩

end chunk


namespace chunk

open gostr

theorem length_le_sentenceChunks (ck : Chunker) (t : List Char)
    (bc : List (List Char)) (si : Nat) (sents : List (List Char))
    (cur : List Char) (cs : List Chunk) :
    cs.length ≤ (sentenceChunks ck t bc si sents cur cs).length := by
  rcases sentenceChunks_eq_append ck t bc si sents cur cs with ⟨ext, hext⟩
  rw [hext]; simp

/-- Every chunk's parent index, when set, points strictly earlier in the
sequence. -/
def ParentsEarlier (cs : List Chunk) : Prop :=
  ∀ (i : Nat) (c : Chunk) (p : Nat), cs[i]? = some c → c.parentIndex = some p → p < i

theorem ParentsEarlier.push {cs : List Chunk} {x : Chunk}
    (hcs : ParentsEarlier cs)
    (hx : ∀ p, x.parentIndex = some p → p < cs.length) :
    ParentsEarlier (cs ++ [x]) := by
  intro i c p hget hp
  by_cases hi : i < cs.length
  · rw [List.getElem?_append_left hi] at hget
    exact hcs i c p hget hp
  · have hlen : i < cs.length + 1 := by
      by_contra hcon
      have hge : cs.length + 1 ≤ i := by omega
      rw [List.getElem?_eq_none (by simpa using hge)] at hget
      exact absurd hget (by simp)
    have hieq : i = cs.length := by omega
    subst hieq
    rw [List.getElem?_append_right (le_refl _)] at hget
    simp at hget
    subst hget
    exact hx p hp

theorem sentenceChunks_parents (ck : Chunker) (t : List Char)
    (bc : List (List Char)) (si : Nat) :
    ∀ (sents : List (List Char)) (cur : List Char) (cs : List Chunk),
    si < cs.length → ParentsEarlier cs →
    ParentsEarlier (sentenceChunks ck t bc si sents cur cs) := by
  intro sents
  induction sents with
  | nil =>
    intro cur cs hsi hcs
    unfold sentenceChunks
    split
    · exact hcs
    · exact hcs.push (fun p hp => by cases hp; exact hsi)
  | cons s rest ih =>
    intro cur cs hsi hcs
    show ParentsEarlier
      (if ck.CountTokens (cur ++ ' ' :: s) > ck.maxTokens ∧ cur ≠ [] then
        sentenceChunks ck t bc si rest s
          (cs ++ [⟨"paragraph", t, trimSpace cur, ck.CountTokens cur, some si, bc⟩])
      else sentenceChunks ck t bc si rest (cur ++ ' ' :: s) cs)
    split
    · exact ih s _ (by simp; omega)
        (hcs.push (fun p hp => by cases hp; exact hsi))
    · exact ih _ cs hsi hcs

theorem paragraphChunks_parents (ck : Chunker) (t : List Char)
    (bc : List (List Char)) (si : Nat) :
    ∀ (paras : List (List Char)) (cs : List Chunk),
    si < cs.length → ParentsEarlier cs →
    ParentsEarlier (paragraphChunks ck t bc si paras cs) := by
  intro paras
  induction paras with
  | nil => intro cs _ hcs; exact hcs
  | cons p rest ih =>
    intro cs hsi hcs
    show ParentsEarlier
      (if (trimSpace p).isEmpty = true then paragraphChunks ck t bc si rest cs
      else if ck.CountTokens (trimSpace p) > ck.maxTokens then
        paragraphChunks ck t bc si rest
          (sentenceChunks ck t bc si (splitIntoSentences (trimSpace p)) [] cs)
      else
        paragraphChunks ck t bc si rest
          (cs ++ [⟨"paragraph", t, trimSpace p, ck.CountTokens (trimSpace p),
            some si, bc⟩]))
    split
    · exact ih cs hsi hcs
    · split
      · refine ih _ ?_ (sentenceChunks_parents ck t bc si _ [] cs hsi hcs)
        exact lt_of_lt_of_le hsi (length_le_sentenceChunks ck t bc si _ [] cs)
      · exact ih _ (by simp; omega)
          (hcs.push (fun p hp => by cases hp; exact hsi))

theorem sectionChunks_parents (ck : Chunker) :
    ∀ (secs : List parse.Section) (stack : List (List Char)) (cs : List Chunk),
    0 < cs.length → ParentsEarlier cs →
    ParentsEarlier (sectionChunks ck secs stack cs) := by
  intro secs
  induction secs with
  | nil => intro stack cs _ hcs; exact hcs
  | cons s rest ih =>
    intro stack cs h0 hcs
    cases hh : s.heading with
    | none =>
      unfold sectionChunks
      rw [hh]
      exact ih stack cs h0 hcs
    | some h =>
      unfold sectionChunks
      rw [hh]
      simp only
      set stack2 := if (stack.take h.level).length < h.level
        then stack.take h.level ++ [h.text]
        else (stack.take h.level).set (h.level - 1) h.text with hstack2
      apply ih
      · split
        · simp
        · rcases paragraphChunks_eq_append ck h.text stack2 cs.length
            (splitIntoParagraphs (trimSpace s.content))
            (cs ++ [⟨"section", h.text, h.text, ck.CountTokens h.text,
              some 0, stack2⟩]) with ⟨ext, hext⟩
          rw [hext]
          simp
      · split
        · exact hcs.push (fun p hp => by cases hp; exact h0)
        · refine paragraphChunks_parents ck h.text stack2 cs.length _ _ ?_ ?_
          · simp
          · exact hcs.push (fun p hp => by cases hp; exact h0)

/-- The parent relation of a chunk sequence steps strictly downward, so
it has no cycles. -/
theorem parentsEarlier_no_cycle {cs : List Chunk} (hpe : ParentsEarlier cs) :
    ∀ i, ¬ Relation.TransGen (fun a b => ingest.parentOf cs a = some b) i i := by
  have hstep : ∀ a b, ingest.parentOf cs a = some b → b < a := by
    intro a b hab
    unfold ingest.parentOf at hab
    cases hget : cs[a]? with
    | none => rw [hget] at hab; simp at hab
    | some c =>
      rw [hget] at hab
      simp at hab
      exact hpe a c b hget hab
  have hlt : ∀ i j, Relation.TransGen (fun a b => ingest.parentOf cs a = some b) i j → j < i := by
    intro i j h
    induction h with
    | single h1 => exact hstep _ _ h1
    | tail _ h2 ih => exact lt_trans (hstep _ _ h2) ih
  intro i hcy
  exact absurd (hlt i i hcy) (lt_irrefl i)

end chunk

namespace ingest

theorem persistLoop_parents (ids : Nat → Int) (ok : Nat → Bool) :
    ∀ (cs : List chunk.Chunk) (i : Nat) (m : Nat → Option Int),
    (∀ j v, m j = some v → j < i ∧ ok j = true ∧ v = ids j) →
    ∀ pc ∈ persistLoop ids ok cs i m,
      i ≤ pc.idx ∧
      ∀ v, pc.parentDbId = some v → ∃ j, j < pc.idx ∧ ok j = true ∧ v = ids j := by
  intro cs
  induction cs with
  | nil => intro i m _ pc hpc; simp [persistLoop] at hpc
  | cons c rest ih =>
    intro i m hm pc hpc
    unfold persistLoop at hpc
    by_cases hok : ok i = true
    · rw [if_pos hok] at hpc
      rcases List.mem_cons.mp hpc with hpc | hpc
      · subst hpc
        refine ⟨le_refl i, ?_⟩
        intro v hv
        simp only at hv
        cases hc : c.parentIndex with
        | none => rw [hc] at hv; simp at hv
        | some p =>
          rw [hc] at hv
          simp only at hv
          rcases hm p v hv with ⟨h1, h2, h3⟩
          exact ⟨p, h1, h2, h3⟩
      · have hm' : ∀ j v, (fun j => if j = i then some (ids i) else m j) j = some v →
            j < i + 1 ∧ ok j = true ∧ v = ids j := by
          intro j v hj
          simp only at hj
          by_cases hji : j = i
          · subst hji
            rw [if_pos rfl] at hj
            cases hj
            exact ⟨by omega, hok, rfl⟩
          · rw [if_neg hji] at hj
            rcases hm j v hj with ⟨h1, h2, h3⟩
            exact ⟨by omega, h2, h3⟩
        rcases ih (i + 1) _ hm' pc hpc with ⟨hidx, hpar⟩
        exact ⟨by omega, hpar⟩
    · rw [if_neg hok] at hpc
      have hm' : ∀ j v, m j = some v → j < i + 1 ∧ ok j = true ∧ v = ids j := by
        intro j v hj
        rcases hm j v hj with ⟨h1, h2, h3⟩
        exact ⟨by omega, h2, h3⟩
      rcases ih (i + 1) m hm' pc hpc with ⟨hidx, hpar⟩
      exact ⟨by omega, hpar⟩

end ingest

namespace chunk

/-- C6: in every chunk sequence produced by Chunk, each set parent index
refers to a chunk emitted strictly earlier; following parent links can
never form a cycle; and the ingestion mapping persists each chunk with a
parent id that is the store id of an earlier, successfully persisted
chunk of the same document sequence (or null when the parent's insert
failed). -/
theorem chunk_hierarchy_valid (ck : Chunker) (doc : parse.Document) :
    (∀ (i : Nat) (c : Chunk) (p : Nat), (ck.Chunk doc)[i]? = some c →
      c.parentIndex = some p → p < i)
    ∧ (∀ i, ¬ Relation.TransGen
        (fun a b => ingest.parentOf (ck.Chunk doc) a = some b) i i)
    ∧ (∀ (ids : Nat → Int) (ok : Nat → Bool),
        ∀ pc ∈ ingest.persistChunks ids ok (ck.Chunk doc),
        ∀ v, pc.parentDbId = some v →
          ∃ j, j < pc.idx ∧ ok j = true ∧ v = ids j) := by
  have hpe : ParentsEarlier (ck.Chunk doc) := by
    apply sectionChunks_parents ck doc.sections [doc.title]
    · simp
    · intro i c p hget hp
      match i, hget with
      | 0, hget =>
        simp at hget
        rw [← hget] at hp
        simp at hp
  refine ⟨hpe, parentsEarlier_no_cycle hpe, ?_⟩
  intro ids ok pc hpc v hv
  have h := ingest.persistLoop_parents ids ok (ck.Chunk doc) 0
    (fun _ => none) (by intro j v hj; simp at hj) pc hpc
  exact h.2 v hv

/-- C6 witness: in the concrete document the section chunk sits at
position 1 with parent index 0, and the theorem yields 0 < 1. -/
theorem chunk_hierarchy_valid_witness :
    ((Chunker.mk 100).Chunk demoDoc)[1]?
      = some ⟨"section", "H".data, "x".data, 1, some 0, ["H".data]⟩
    ∧ (0 : Nat) < 1 :=
  ⟨by decide,
    (chunk_hierarchy_valid (Chunker.mk 100) demoDoc).1 1
      ⟨"section", "H".data, "x".data, 1, some 0, ["H".data]⟩ 0 (by decide) rfl⟩

end chunk

namespace chunk

open gostr

/-- A breadcrumb list is nonempty and starts with the document title or
with the text of some level-1 heading of the document. -/
def BCrumbOK (T : List Char) (secs0 : List parse.Section)
    (bs : List (List Char)) : Prop :=
  bs ≠ [] ∧ (bs.head? = some T
    ∨ ∃ s ∈ secs0, ∃ h, s.heading = some h ∧ h.level = 1 ∧ bs.head? = some h.text)

theorem sentenceChunks_bc (ck : Chunker) (t : List Char)
    (bc : List (List Char)) (si : Nat) :
    ∀ (sents : List (List Char)) (cur : List Char) (cs : List Chunk),
    ∀ c ∈ sentenceChunks ck t bc si sents cur cs, c ∈ cs ∨ c.breadcrumbs = bc := by
  intro sents
  induction sents with
  | nil =>
    intro cur cs c hc
    unfold sentenceChunks at hc
    split at hc
    · exact Or.inl hc
    · rcases List.mem_append.mp hc with h | h
      · exact Or.inl h
      · simp at h
        subst h
        exact Or.inr rfl
  | cons s rest ih =>
    intro cur cs c hc
    rw [show sentenceChunks ck t bc si (s :: rest) cur cs =
      (if ck.CountTokens (cur ++ ' ' :: s) > ck.maxTokens ∧ cur ≠ [] then
        sentenceChunks ck t bc si rest s
          (cs ++ [⟨"paragraph", t, trimSpace cur, ck.CountTokens cur, some si, bc⟩])
      else sentenceChunks ck t bc si rest (cur ++ ' ' :: s) cs) from rfl] at hc
    split at hc
    · rcases ih s _ c hc with h | h
      · rcases List.mem_append.mp h with h1 | h1
        · exact Or.inl h1
        · simp at h1
          subst h1
          exact Or.inr rfl
      · exact Or.inr h
    · exact ih _ cs c hc

theorem paragraphChunks_bc (ck : Chunker) (t : List Char)
    (bc : List (List Char)) (si : Nat) :
    ∀ (paras : List (List Char)) (cs : List Chunk),
    ∀ c ∈ paragraphChunks ck t bc si paras cs, c ∈ cs ∨ c.breadcrumbs = bc := by
  intro paras
  induction paras with
  | nil => intro cs c hc; exact Or.inl hc
  | cons p rest ih =>
    intro cs c hc
    rw [show paragraphChunks ck t bc si (p :: rest) cs =
      (if (trimSpace p).isEmpty = true then paragraphChunks ck t bc si rest cs
      else if ck.CountTokens (trimSpace p) > ck.maxTokens then
        paragraphChunks ck t bc si rest
          (sentenceChunks ck t bc si (splitIntoSentences (trimSpace p)) [] cs)
      else
        paragraphChunks ck t bc si rest
          (cs ++ [⟨"paragraph", t, trimSpace p, ck.CountTokens (trimSpace p),
            some si, bc⟩])) from rfl] at hc
    split at hc
    · exact ih cs c hc
    · split at hc
      · rcases ih _ c hc with h | h
        · rcases sentenceChunks_bc ck t bc si _ [] cs c h with h1 | h1
          · exact Or.inl h1
          · exact Or.inr h1
        · exact Or.inr h
      · rcases ih _ c hc with h | h
        · rcases List.mem_append.mp h with h1 | h1
          · exact Or.inl h1
          · simp at h1
            subst h1
            exact Or.inr rfl
        · exact Or.inr h

theorem sectionChunks_bcrumb (ck : Chunker) (T : List Char)
    (secs0 : List parse.Section) :
    ∀ (secs : List parse.Section) (stack : List (List Char)) (cs : List Chunk),
    (∀ s ∈ secs, s ∈ secs0) →
    (∀ s ∈ secs, ∀ h, s.heading = some h → 1 ≤ h.level) →
    BCrumbOK T secs0 stack →
    (∀ c ∈ cs, BCrumbOK T secs0 c.breadcrumbs) →
    ∀ c ∈ sectionChunks ck secs stack cs, BCrumbOK T secs0 c.breadcrumbs := by
  intro secs
  induction secs with
  | nil => intro stack cs _ _ _ hcs c hc; exact hcs c hc
  | cons s rest ih =>
    intro stack cs hsub hlvl hstack hcs c hc
    have hsub' : ∀ x ∈ rest, x ∈ secs0 :=
      fun x hx => hsub x (List.mem_cons_of_mem s hx)
    have hlvl' : ∀ x ∈ rest, ∀ h, x.heading = some h → 1 ≤ h.level :=
      fun x hx => hlvl x (List.mem_cons_of_mem s hx)
    cases hh : s.heading with
    | none =>
      unfold sectionChunks at hc
      rw [hh] at hc
      exact ih stack cs hsub' hlvl' hstack hcs c hc
    | some h =>
      have hs0 : s ∈ secs0 := hsub s (List.mem_cons_self s rest)
      have hl1 : 1 ≤ h.level := hlvl s (List.mem_cons_self s rest) h hh
      rcases hstack with ⟨hsne, hshead⟩
      obtain ⟨a, tl, rfl⟩ : ∃ a tl, stack = a :: tl := by
        cases stack with
        | nil => exact absurd rfl hsne
        | cons a tl => exact ⟨a, tl, rfl⟩
      have htake : (a :: tl).take h.level = a :: tl.take (h.level - 1) := by
        obtain ⟨lv, hlv⟩ : ∃ lv, h.level = lv + 1 := ⟨h.level - 1, by omega⟩
        rw [hlv]
        simp
      have hb1 : BCrumbOK T secs0 ((a :: tl).take h.level ++ [h.text]) := by
        rw [htake]
        refine ⟨by simp, ?_⟩
        simp only [List.cons_append, List.head?_cons]
        simpa using hshead
      have hb2 : BCrumbOK T secs0 (((a :: tl).take h.level).set (h.level - 1) h.text) := by
        rw [htake]
        by_cases h1 : h.level = 1
        · rw [h1]
          simp only [Nat.sub_self, List.set_cons_zero]
          exact ⟨by simp, Or.inr ⟨s, hs0, h, hh, h1, by simp⟩⟩
        · obtain ⟨lv, hlv⟩ : ∃ lv, h.level - 1 = lv + 1 := ⟨h.level - 2, by omega⟩
          rw [hlv]
          simp only [List.set_cons_succ]
          refine ⟨by simp, ?_⟩
          simpa using hshead
      unfold sectionChunks at hc
      rw [hh] at hc
      simp only at hc
      refine ih _ _ hsub' hlvl' ?_ ?_ c hc
      · split
        · exact hb1
        · exact hb2
      · intro c' hc'
        split at hc'
        · rcases List.mem_append.mp hc' with h1 | h1
          · exact hcs c' h1
          · simp at h1
            subst h1
            show BCrumbOK T secs0 (if tl.length + 1 < h.level
              then (a :: tl).take h.level ++ [h.text]
              else ((a :: tl).take h.level).set (h.level - 1) h.text)
            split
            · exact hb1
            · exact hb2
        · rcases paragraphChunks_bc ck h.text _ cs.length _ _ c' hc' with h1 | h1
          · rcases List.mem_append.mp h1 with h2 | h2
            · exact hcs c' h2
            · simp at h2
              subst h2
              show BCrumbOK T secs0 (if tl.length + 1 < h.level
                then (a :: tl).take h.level ++ [h.text]
                else ((a :: tl).take h.level).set (h.level - 1) h.text)
              split
              · exact hb1
              · exact hb2
          · rw [h1]
            split
            · exact hb1
            · exact hb2

end chunk

namespace chunk

open gostr

/-- C2 counterexample: in a document titled T whose single section has a
level-1 heading H, the section chunk's breadcrumb list starts with H,
not with the document title, so the claim that every chunk's breadcrumbs
start with the document title is false. -/
theorem chunk_breadcrumb_not_title :
    demoDoc.rawContent ≠ []
    ∧ ∃ c ∈ (Chunker.mk 100).Chunk demoDoc,
        c.breadcrumbs.head? ≠ some demoDoc.title := by
  decide

/-- C2 amended: for a non-empty document whose headings all have level
at least 1 (as the Markdown parser guarantees), Chunk returns at least
one chunk, the first chunk is the summary chunk, and every chunk's
breadcrumb list is nonempty and starts with the document title or with
the text of a level-1 heading of the document (a level-1 heading
overwrites the title slot of the heading stack). -/
theorem chunk_coverage (ck : Chunker) (doc : parse.Document)
    (hne : doc.rawContent ≠ [])
    (hlvl : ∀ s ∈ doc.sections, ∀ h, s.heading = some h → 1 ≤ h.level) :
    ck.Chunk doc ≠ []
    ∧ (∀ c, (ck.Chunk doc).head? = some c → c.level = "summary")
    ∧ ∀ c ∈ ck.Chunk doc, c.breadcrumbs ≠ []
        ∧ (c.breadcrumbs.head? = some doc.title
          ∨ ∃ s ∈ doc.sections, ∃ h, s.heading = some h ∧ h.level = 1
              ∧ c.breadcrumbs.head? = some h.text) := by
  refine ⟨?_, ?_, ?_⟩
  · exact sectionChunks_ne_nil ck doc.sections [doc.title] _ []
  · intro c hc
    have h2 : (ck.Chunk doc).head? = some ⟨"summary", doc.title,
        summaryContent doc, ck.CountTokens (summaryContent doc), none,
        [doc.title]⟩ :=
      head?_sectionChunks ck doc.sections [doc.title] _ []
    rw [h2] at hc
    cases hc
    rfl
  · intro c hc
    exact sectionChunks_bcrumb ck doc.title doc.sections doc.sections
      [doc.title] _ (fun s hs => hs) hlvl
      ⟨by simp, Or.inl rfl⟩
      (by
        intro c' hc'
        simp at hc'
        subst hc'
        exact ⟨by simp, Or.inl rfl⟩)
      c hc

/-- C2 witness: the amended coverage theorem applied to the concrete
document with a level-1 heading. -/
theorem chunk_coverage_witness :
    demoDoc.rawContent ≠ []
    ∧ (∀ s ∈ demoDoc.sections, ∀ h, s.heading = some h → 1 ≤ h.level)
    ∧ ((Chunker.mk 100).Chunk demoDoc ≠ []
      ∧ (∀ c, ((Chunker.mk 100).Chunk demoDoc).head? = some c → c.level = "summary")
      ∧ ∀ c ∈ (Chunker.mk 100).Chunk demoDoc, c.breadcrumbs ≠ []
          ∧ (c.breadcrumbs.head? = some demoDoc.title
            ∨ ∃ s ∈ demoDoc.sections, ∃ h, s.heading = some h ∧ h.level = 1
                ∧ c.breadcrumbs.head? = some h.text)) :=
  ⟨by decide, by decide,
    chunk_coverage (Chunker.mk 100) demoDoc (by decide) (by decide)⟩

end chunk

namespace chunk

open gostr

/-- Invariant flow of the sentence-accumulation loop: every chunk it
emits is formed from a buffer value `u` reachable under a buffer
invariant `P` that holds for restarts from a sentence, for a sentence
joined to the empty buffer, and for guarded growth of a nonempty
buffer. -/
theorem sentenceChunks_shape (ck : Chunker) (t : List Char)
    (bc : List (List Char)) (si : Nat) (S P : List Char → Prop)
    (hflush : ∀ s, S s → P s)
    (hgrow0 : ∀ s, S s → P (' ' :: s))
    (hgrow : ∀ cur s, P cur → S s → cur ≠ [] →
      ¬(ck.CountTokens (cur ++ ' ' :: s) > ck.maxTokens) → P (cur ++ ' ' :: s)) :
    ∀ (sents : List (List Char)) (cur : List Char) (cs : List Chunk),
    (∀ s ∈ sents, S s) → (cur = [] ∨ P cur) →
    ∀ c ∈ sentenceChunks ck t bc si sents cur cs,
      c ∈ cs ∨ ∃ u, P u ∧
        c = ⟨"paragraph", t, trimSpace u, ck.CountTokens u, some si, bc⟩ := by
  intro sents
  induction sents with
  | nil =>
    intro cur cs hS hcur c hc
    unfold sentenceChunks at hc
    split at hc
    · exact Or.inl hc
    · rcases List.mem_append.mp hc with h | h
      · exact Or.inl h
      · simp at h
        subst h
        have hP : P cur := by
          rcases hcur with h0 | hP
          · subst h0
            simp [trimSpace_nil] at *
          · exact hP
        exact Or.inr ⟨cur, hP, rfl⟩
  | cons s rest ih =>
    intro cur cs hS hcur c hc
    have hSs : S s := hS s (List.mem_cons_self s rest)
    have hS' : ∀ x ∈ rest, S x := fun x hx => hS x (List.mem_cons_of_mem s hx)
    rw [show sentenceChunks ck t bc si (s :: rest) cur cs =
      (if ck.CountTokens (cur ++ ' ' :: s) > ck.maxTokens ∧ cur ≠ [] then
        sentenceChunks ck t bc si rest s
          (cs ++ [⟨"paragraph", t, trimSpace cur, ck.CountTokens cur, some si, bc⟩])
      else sentenceChunks ck t bc si rest (cur ++ ' ' :: s) cs) from rfl] at hc
    split at hc
    · rename_i hguard
      have hPcur : P cur := by
        rcases hcur with h0 | hP
        · exact absurd h0 hguard.2
        · exact hP
      rcases ih s _ hS' (Or.inr (hflush s hSs)) c hc with h | h
      · rcases List.mem_append.mp h with h1 | h1
        · exact Or.inl h1
        · simp at h1
          subst h1
          exact Or.inr ⟨cur, hPcur, rfl⟩
      · exact Or.inr h
    · rename_i hguard
      have hPtest : P (cur ++ ' ' :: s) := by
        by_cases hce : cur = []
        · subst hce
          exact hgrow0 s hSs
        · rcases hcur with h0 | hP
          · exact absurd h0 hce
          · have hnot : ¬(ck.CountTokens (cur ++ ' ' :: s) > ck.maxTokens) := by
              intro hgt
              exact hguard ⟨hgt, hce⟩
            exact hgrow cur s hP hSs hce hnot
      exact ih _ cs hS' (Or.inr hPtest) c hc

/-- A binding of trim-stability for sentences: each element returned by
the sentence splitter is a nonempty trimmed string. -/
def SentStable (s : List Char) : Prop := trimSpace s = s ∧ s ≠ []

theorem sentencesLoop_stable :
    ∀ (text current : List Char), ∀ s ∈ sentencesLoop text current, SentStable s := by
  intro text
  induction text with
  | nil =>
    intro current s hs
    unfold sentencesLoop at hs
    split at hs
    · simp at hs
    · rename_i hne
      simp at hs
      subst hs
      refine ⟨trimSpace_trimSpace current, ?_⟩
      simpa using hne
  | cons c rest ih =>
    intro current s hs
    unfold sentencesLoop at hs
    split at hs
    · rename_i hterm
      rcases List.mem_cons.mp hs with h | h
      · subst h
        refine ⟨trimSpace_trimSpace _, ?_⟩
        have hcmem : c ∈ current ++ [c] := by simp
        have hcsp : goIsSpace c = false := by
          have h3 : (c = '.' ∨ c = '!') ∨ c = '?' := by
            simpa [isTerminator] using hterm
          rcases h3 with (h | h) | h <;> subst h <;> rfl
        exact trimSpace_ne_nil hcmem hcsp
      · exact ih [] s h
    · exact ih _ s hs

theorem splitIntoSentences_stable (text : List Char) :
    ∀ s ∈ splitIntoSentences text, SentStable s :=
  sentencesLoop_stable text []

/-- A nonempty string whose two ends are not white space. -/
def EndsOk (a : List Char) : Prop :=
  a ≠ [] ∧ (∀ c ∈ a.head?, goIsSpace c = false)
    ∧ (∀ c ∈ a.getLast?, goIsSpace c = false)

theorem SentStable.endsOk {s : List Char} (h : SentStable s) : EndsOk s := by
  rcases h with ⟨hst, hne⟩
  refine ⟨hne, ?_, ?_⟩
  · intro c hc
    rw [← hst] at hc
    exact head?_trimSpace hc
  · intro c hc
    rw [← hst] at hc
    exact getLast?_trimSpace hc

theorem EndsOk.trim_eq {a : List Char} (h : EndsOk a) : trimSpace a = a :=
  trimSpace_eq_self a h.2.1 h.2.2

theorem getLast?_append_ne_nil {x y : List Char} (hy : y ≠ []) :
    (x ++ y).getLast? = y.getLast? := by
  obtain ⟨z, w, rfl⟩ : ∃ z w, y = z :: w := by
    cases y with
    | nil => exact absurd rfl hy
    | cons z w => exact ⟨z, w, rfl⟩
  rw [List.getLast?_append, List.getLast?_cons]
  rfl

theorem EndsOk.join {a b : List Char} (ha : EndsOk a) (hb : EndsOk b) :
    EndsOk (a ++ ' ' :: b) := by
  refine ⟨by simp, ?_, ?_⟩
  · intro c hc
    obtain ⟨x, t, rfl⟩ : ∃ x t, a = x :: t := by
      cases a with
      | nil => exact absurd rfl ha.1
      | cons x t => exact ⟨x, t, rfl⟩
    simp at hc
    subst hc
    exact ha.2.1 x (by simp)
  · intro c hc
    rw [getLast?_append_ne_nil (by simp)] at hc
    obtain ⟨x, t, rfl⟩ : ∃ x t, b = x :: t := by
      cases b with
      | nil => exact absurd rfl hb.1
      | cons x t => exact ⟨x, t, rfl⟩
    rw [List.getLast?_cons_cons] at hc
    exact hb.2.2 c hc

/-- The buffer of the sentence loop is always a trim-stable nonempty
string, possibly preceded by the single joining space. -/
def GoodBuf (u : List Char) : Prop :=
  ∃ a, EndsOk a ∧ (u = a ∨ u = ' ' :: a)

/-- Chunk token count matches its content, or its content preceded by
one space (the untrimmed accumulation buffer). -/
def TokOK (ck : Chunker) (c : Chunk) : Prop :=
  c.tokenCount = ck.CountTokens c.content
  ∨ c.tokenCount = ck.CountTokens (' ' :: c.content)

theorem goodBuf_tokOK (ck : Chunker) (t : List Char) (bc : List (List Char))
    (si : Nat) {u : List Char} (hu : GoodBuf u) :
    TokOK ck ⟨"paragraph", t, trimSpace u, ck.CountTokens u, some si, bc⟩ := by
  rcases hu with ⟨a, ha, h | h⟩
  · subst h
    left
    simp only
    rw [ha.trim_eq]
  · subst h
    right
    simp only
    rw [trimSpace_cons_space (by decide), ha.trim_eq]

theorem sentenceChunks_tok (ck : Chunker) (t : List Char)
    (bc : List (List Char)) (si : Nat) (sents : List (List Char))
    (cs : List Chunk)
    (hS : ∀ s ∈ sents, SentStable s)
    (hcs : ∀ c ∈ cs, TokOK ck c) :
    ∀ c ∈ sentenceChunks ck t bc si sents [] cs, TokOK ck c := by
  intro c hc
  rcases sentenceChunks_shape ck t bc si SentStable GoodBuf
    (fun s hs => ⟨s, hs.endsOk, Or.inl rfl⟩)
    (fun s hs => ⟨s, hs.endsOk, Or.inr rfl⟩)
    (fun cur s hP hs hne _ => by
      rcases hP with ⟨a, ha, h | h⟩
      · exact ⟨a ++ ' ' :: s, ha.join hs.endsOk, Or.inl (by rw [h])⟩
      · exact ⟨a ++ ' ' :: s, ha.join hs.endsOk, Or.inr (by rw [h]; rfl)⟩)
    sents [] cs hS (Or.inl rfl) c hc with h | ⟨u, hu, hceq⟩
  · exact hcs c h
  · subst hceq
    exact goodBuf_tokOK ck t bc si hu

end chunk

namespace chunk

open gostr

theorem paragraphChunks_tok (ck : Chunker) (t : List Char)
    (bc : List (List Char)) (si : Nat) :
    ∀ (paras : List (List Char)) (cs : List Chunk),
    (∀ c ∈ cs, TokOK ck c) →
    ∀ c ∈ paragraphChunks ck t bc si paras cs, TokOK ck c := by
  intro paras
  induction paras with
  | nil => intro cs hcs c hc; exact hcs c hc
  | cons p rest ih =>
    intro cs hcs c hc
    rw [show paragraphChunks ck t bc si (p :: rest) cs =
      (if (trimSpace p).isEmpty = true then paragraphChunks ck t bc si rest cs
      else if ck.CountTokens (trimSpace p) > ck.maxTokens then
        paragraphChunks ck t bc si rest
          (sentenceChunks ck t bc si (splitIntoSentences (trimSpace p)) [] cs)
      else
        paragraphChunks ck t bc si rest
          (cs ++ [⟨"paragraph", t, trimSpace p, ck.CountTokens (trimSpace p),
            some si, bc⟩])) from rfl] at hc
    split at hc
    · exact ih cs hcs c hc
    · split at hc
      · refine ih _ ?_ c hc
        exact sentenceChunks_tok ck t bc si _ cs
          (splitIntoSentences_stable (trimSpace p)) hcs
      · refine ih _ ?_ c hc
        intro c' hc'
        rcases List.mem_append.mp hc' with h | h
        · exact hcs c' h
        · simp at h
          subst h
          exact Or.inl rfl

theorem sectionChunks_tok (ck : Chunker) :
    ∀ (secs : List parse.Section) (stack : List (List Char)) (cs : List Chunk),
    (∀ c ∈ cs, TokOK ck c) →
    ∀ c ∈ sectionChunks ck secs stack cs, TokOK ck c := by
  intro secs
  induction secs with
  | nil => intro stack cs hcs c hc; exact hcs c hc
  | cons s rest ih =>
    intro stack cs hcs c hc
    cases hh : s.heading with
    | none =>
      unfold sectionChunks at hc
      rw [hh] at hc
      exact ih stack cs hcs c hc
    | some h =>
      unfold sectionChunks at hc
      rw [hh] at hc
      simp only at hc
      refine ih _ _ ?_ c hc
      intro c' hc'
      split at hc'
      · rcases List.mem_append.mp hc' with h1 | h1
        · exact hcs c' h1
        · simp at h1
          subst h1
          exact Or.inl rfl
      · refine paragraphChunks_tok ck h.text _ cs.length _ _ ?_ c' hc'
        intro c2 hc2
        rcases List.mem_append.mp hc2 with h1 | h1
        · exact hcs c2 h1
        · simp at h1
          subst h1
          exact Or.inl rfl

/-- C7 counterexample: with a one-token budget, the section content
consisting of the two sentences abc. and de. is sentence-split, and the
first flushed chunk stores the trimmed content abc. (4 bytes, estimate
1) while its token count was computed on the untrimmed buffer with its
leading space (5 bytes, estimate 2); the stored token count does not
reflect the stored content. -/
theorem chunk_token_count_mismatch :
    ∃ c ∈ (Chunker.mk 1).Chunk
      ⟨"T".data, [⟨some ⟨1, "H".data⟩, "abc. de.".data⟩], "x".data⟩,
      c.tokenCount ≠ (Chunker.mk 1).CountTokens c.content := by
  decide

/-- C7 amended: every chunk's token count equals the token estimate of
its stored content, except that a sentence-accumulated paragraph chunk
may instead carry the estimate of its content preceded by the single
joining space left in the accumulation buffer. -/
theorem chunk_token_count_reflects_content (ck : Chunker) (doc : parse.Document) :
    ∀ c ∈ ck.Chunk doc,
      c.tokenCount = ck.CountTokens c.content
      ∨ c.tokenCount = ck.CountTokens (' ' :: c.content) := by
  intro c hc
  exact sectionChunks_tok ck doc.sections [doc.title] _
    (by
      intro c' hc'
      simp at hc'
      subst hc'
      exact Or.inl rfl)
    c hc

end chunk

namespace chunk

open gostr

/-- C7 witness: the token-count theorem applied to the section chunk of
the concrete document. -/
theorem chunk_token_count_reflects_content_witness :
    (⟨"section", "H".data, "x".data, 1, some 0, ["H".data]⟩ : Chunk)
      ∈ (Chunker.mk 100).Chunk demoDoc
    ∧ ((⟨"section", "H".data, "x".data, 1, some 0, ["H".data]⟩ : Chunk).tokenCount
        = (Chunker.mk 100).CountTokens
          (⟨"section", "H".data, "x".data, 1, some 0, ["H".data]⟩ : Chunk).content
      ∨ (⟨"section", "H".data, "x".data, 1, some 0, ["H".data]⟩ : Chunk).tokenCount
        = (Chunker.mk 100).CountTokens
          (' ' :: (⟨"section", "H".data, "x".data, 1, some 0, ["H".data]⟩ : Chunk).content)) :=
  ⟨by decide,
    chunk_token_count_reflects_content (Chunker.mk 100) demoDoc _ (by decide)⟩

/-- The largest element of a list of naturals, zero for the empty list. -/
def listMaxNat (l : List Nat) : Nat := l.foldr max 0

theorem le_listMaxNat {a : Nat} {l : List Nat} (h : a ∈ l) : a ≤ listMaxNat l := by
  induction l with
  | nil => simp at h
  | cons x xs ih =>
    rcases List.mem_cons.mp h with h1 | h1
    · subst h1
      exact le_max_left _ _
    · exact le_trans (ih h1) (le_max_right _ _)

/-- The largest token estimate of any sentence of any over-budget-split
paragraph of any section of the document: one sentence-worth of
tokens. -/
def sentTokenBound (ck : Chunker) (doc : parse.Document) : Nat :=
  listMaxNat (doc.sections.map fun s =>
    listMaxNat ((splitIntoParagraphs (trimSpace s.content)).map fun p =>
      listMaxNat ((splitIntoSentences (trimSpace p)).map ck.CountTokens)))

theorem countTokens_space_cons (ck : Chunker) (s : List Char) :
    ck.CountTokens (' ' :: s) ≤ ck.CountTokens s + 1 := by
  show (utf8Len (' ' :: s) + 3) / 4 ≤ (utf8Len s + 3) / 4 + 1
  have h1 : utf8Len (' ' :: s) = 1 + utf8Len s := by
    show ' '.utf8Size + utf8Len s = 1 + utf8Len s
    rfl
  rw [h1]
  have h2 : (1 + utf8Len s + 3) = utf8Len s + 4 := by omega
  rw [h2, Nat.add_div_right _ (by norm_num)]
  have h3 : utf8Len s / 4 ≤ (utf8Len s + 3) / 4 := Nat.div_le_div_right (by omega)
  omega

/-- A paragraph-level chunk respects the budget up to one
sentence-worth of tokens. -/
def BudgetOK (ck : Chunker) (M : Nat) (c : Chunk) : Prop :=
  c.level = "paragraph" → c.tokenCount ≤ ck.maxTokens + M

theorem sentenceChunks_budget (ck : Chunker) (t : List Char)
    (bc : List (List Char)) (si : Nat) (M : Nat) (hmt : 1 ≤ ck.maxTokens)
    (sents : List (List Char)) (cs : List Chunk)
    (hS : ∀ s ∈ sents, ck.CountTokens s ≤ M)
    (hcs : ∀ c ∈ cs, BudgetOK ck M c) :
    ∀ c ∈ sentenceChunks ck t bc si sents [] cs, BudgetOK ck M c := by
  intro c hc
  rcases sentenceChunks_shape ck t bc si (fun s => ck.CountTokens s ≤ M)
    (fun u => ck.CountTokens u ≤ ck.maxTokens + M)
    (fun s hs => le_trans hs (by omega))
    (fun s hs => le_trans (countTokens_space_cons ck s) (by omega))
    (fun cur s _ _ _ hng => le_trans (by omega : ck.CountTokens (cur ++ ' ' :: s) ≤ ck.maxTokens) (by omega))
    sents [] cs hS (Or.inl rfl) c hc with h | ⟨u, hu, hceq⟩
  · exact hcs c h
  · subst hceq
    intro _
    exact hu

theorem paragraphChunks_budget (ck : Chunker) (t : List Char)
    (bc : List (List Char)) (si : Nat) (M : Nat) (hmt : 1 ≤ ck.maxTokens) :
    ∀ (paras : List (List Char)) (cs : List Chunk),
    (∀ p ∈ paras, ∀ s ∈ splitIntoSentences (trimSpace p), ck.CountTokens s ≤ M) →
    (∀ c ∈ cs, BudgetOK ck M c) →
    ∀ c ∈ paragraphChunks ck t bc si paras cs, BudgetOK ck M c := by
  intro paras
  induction paras with
  | nil => intro cs _ hcs c hc; exact hcs c hc
  | cons p rest ih =>
    intro cs hp hcs c hc
    have hp' : ∀ x ∈ rest, ∀ s ∈ splitIntoSentences (trimSpace x),
        ck.CountTokens s ≤ M :=
      fun x hx => hp x (List.mem_cons_of_mem p hx)
    rw [show paragraphChunks ck t bc si (p :: rest) cs =
      (if (trimSpace p).isEmpty = true then paragraphChunks ck t bc si rest cs
      else if ck.CountTokens (trimSpace p) > ck.maxTokens then
        paragraphChunks ck t bc si rest
          (sentenceChunks ck t bc si (splitIntoSentences (trimSpace p)) [] cs)
      else
        paragraphChunks ck t bc si rest
          (cs ++ [⟨"paragraph", t, trimSpace p, ck.CountTokens (trimSpace p),
            some si, bc⟩])) from rfl] at hc
    split at hc
    · exact ih cs hp' hcs c hc
    · split at hc
      · refine ih _ hp' ?_ c hc
        exact sentenceChunks_budget ck t bc si M hmt _ cs
          (hp p (List.mem_cons_self p rest)) hcs
      · rename_i hfit
        refine ih _ hp' ?_ c hc
        intro c' hc'
        rcases List.mem_append.mp hc' with h | h
        · exact hcs c' h
        · simp at h
          subst h
          intro _
          simp only
          omega

theorem sectionChunks_budget (ck : Chunker) (M : Nat) (hmt : 1 ≤ ck.maxTokens) :
    ∀ (secs : List parse.Section) (stack : List (List Char)) (cs : List Chunk),
    (∀ s ∈ secs, ∀ p ∈ splitIntoParagraphs (trimSpace s.content),
      ∀ x ∈ splitIntoSentences (trimSpace p), ck.CountTokens x ≤ M) →
    (∀ c ∈ cs, BudgetOK ck M c) →
    ∀ c ∈ sectionChunks ck secs stack cs, BudgetOK ck M c := by
  intro secs
  induction secs with
  | nil => intro stack cs _ hcs c hc; exact hcs c hc
  | cons s rest ih =>
    intro stack cs hsec hcs c hc
    have hsec' : ∀ x ∈ rest, ∀ p ∈ splitIntoParagraphs (trimSpace x.content),
        ∀ y ∈ splitIntoSentences (trimSpace p), ck.CountTokens y ≤ M :=
      fun x hx => hsec x (List.mem_cons_of_mem s hx)
    cases hh : s.heading with
    | none =>
      unfold sectionChunks at hc
      rw [hh] at hc
      exact ih stack cs hsec' hcs c hc
    | some h =>
      unfold sectionChunks at hc
      rw [hh] at hc
      simp only at hc
      refine ih _ _ hsec' ?_ c hc
      intro c' hc'
      split at hc'
      · rcases List.mem_append.mp hc' with h1 | h1
        · exact hcs c' h1
        · simp at h1
          subst h1
          intro hlv
          simp at hlv
      · refine paragraphChunks_budget ck h.text _ cs.length M hmt _ _
          (hsec s (List.mem_cons_self s rest)) ?_ c' hc'
        intro c2 hc2
        rcases List.mem_append.mp hc2 with h1 | h1
        · exact hcs c2 h1
        · simp at h1
          subst h1
          intro hlv
          simp at hlv

end chunk

namespace chunk

open gostr

theorem sectionChunks_fit_mem (ck : Chunker) :
    ∀ (secs : List parse.Section) (stack : List (List Char)) (cs : List Chunk),
    ∀ s ∈ secs, ∀ h, s.heading = some h →
    ck.CountTokens (trimSpace s.content) ≤ ck.maxTokens →
    ∃ c ∈ sectionChunks ck secs stack cs, c.level = "section"
      ∧ c.title = h.text ∧ c.content = trimSpace s.content
      ∧ c.tokenCount = ck.CountTokens (trimSpace s.content) := by
  intro secs
  induction secs with
  | nil => intro stack cs s hs; simp at hs
  | cons s1 rest ih =>
    intro stack cs s hs h hh hfit
    rcases List.mem_cons.mp hs with heq | hmem
    · subst heq
      have hmem2 : (⟨"section", h.text, trimSpace s.content,
          ck.CountTokens (trimSpace s.content), some 0,
          if (stack.take h.level).length < h.level
            then stack.take h.level ++ [h.text]
            else (stack.take h.level).set (h.level - 1) h.text⟩ : Chunk)
          ∈ sectionChunks ck (s :: rest) stack cs := by
        unfold sectionChunks
        rw [hh]
        simp only
        rw [if_pos hfit]
        exact mem_sectionChunks_of_mem ck (List.mem_append_right cs (by simp))
      exact ⟨_, hmem2, rfl, rfl, rfl, rfl⟩
    · cases hh1 : s1.heading with
      | none =>
        unfold sectionChunks
        rw [hh1]
        exact ih stack cs s hmem h hh hfit
      | some h1 =>
        unfold sectionChunks
        rw [hh1]
        simp only
        exact ih _ _ s hmem h hh hfit

/-- C5: with a positive token budget, every paragraph-level chunk's
token count is at most the budget plus one sentence-worth of tokens
(the largest sentence estimate occurring in the document), and every
section whose trimmed content fits the budget is emitted as a section
chunk whose token count is exactly the estimate of the whole trimmed
section content. -/
theorem chunk_budget_respect (ck : Chunker) (doc : parse.Document)
    (hmt : 1 ≤ ck.maxTokens) :
    (∀ c ∈ ck.Chunk doc, c.level = "paragraph" →
      c.tokenCount ≤ ck.maxTokens + sentTokenBound ck doc)
    ∧ (∀ s ∈ doc.sections, ∀ h, s.heading = some h →
        ck.CountTokens (trimSpace s.content) ≤ ck.maxTokens →
        ∃ c ∈ ck.Chunk doc, c.level = "section" ∧ c.title = h.text
          ∧ c.content = trimSpace s.content
          ∧ c.tokenCount = ck.CountTokens (trimSpace s.content)) := by
  constructor
  · intro c hc
    refine sectionChunks_budget ck (sentTokenBound ck doc) hmt doc.sections
      [doc.title] _ ?_ ?_ c hc
    · intro s hs p hp x hx
      have h1 : ck.CountTokens x
          ≤ listMaxNat ((splitIntoSentences (trimSpace p)).map ck.CountTokens) :=
        le_listMaxNat (List.mem_map_of_mem ck.CountTokens hx)
      have h2 : listMaxNat ((splitIntoSentences (trimSpace p)).map ck.CountTokens)
          ≤ listMaxNat ((splitIntoParagraphs (trimSpace s.content)).map fun q =>
              listMaxNat ((splitIntoSentences (trimSpace q)).map ck.CountTokens)) :=
        le_listMaxNat (List.mem_map_of_mem _ hp)
      have h3 : listMaxNat ((splitIntoParagraphs (trimSpace s.content)).map fun q =>
              listMaxNat ((splitIntoSentences (trimSpace q)).map ck.CountTokens))
          ≤ sentTokenBound ck doc :=
        le_listMaxNat (List.mem_map_of_mem _ hs)
      omega
    · intro c' hc'
      simp at hc'
      subst hc'
      intro hlv
      simp at hlv
  · intro s hs h hh hfit
    exact sectionChunks_fit_mem ck doc.sections [doc.title] _ s hs h hh hfit

/-- C5 witness: the budget theorem applied to the concrete document,
whose single section fits a budget of one token. -/
theorem chunk_budget_respect_witness :
    1 ≤ (Chunker.mk 1).maxTokens
    ∧ ((∀ c ∈ (Chunker.mk 1).Chunk demoDoc, c.level = "paragraph" →
        c.tokenCount ≤ (Chunker.mk 1).maxTokens + sentTokenBound (Chunker.mk 1) demoDoc)
      ∧ (∀ s ∈ demoDoc.sections, ∀ h, s.heading = some h →
          (Chunker.mk 1).CountTokens (trimSpace s.content) ≤ (Chunker.mk 1).maxTokens →
          ∃ c ∈ (Chunker.mk 1).Chunk demoDoc, c.level = "section" ∧ c.title = h.text
            ∧ c.content = trimSpace s.content
            ∧ c.tokenCount = (Chunker.mk 1).CountTokens (trimSpace s.content))) :=
  ⟨by decide, chunk_budget_respect (Chunker.mk 1) demoDoc (by decide)⟩

end chunk
